import Mathlib

/-!
Verification development for the `lmc` model-checking toolkit.

This file gives a shallow embedding, in Lean 4, of the core algorithms of the
repository:

* the LTL expression tree and its positive-normal-form rewriting
  (`src/ltl/src/formula.rs`),
* closure / elementary-set construction (`src/ltl/src/formula.rs`),
* the LTL display routine and the prefix-Polish parser
  (`src/ltl/src/formula.rs`),
* the Buchi automaton structure, its emptiness check `verify` and the
  degeneralization `gnba_to_nba` (`src/buchi/src/nba.rs`),
* the LTL-to-GNBA tableau translation (`src/src/transform.rs`),
* the parity-game structure with the `fpi` and `zielonka` solvers
  (`src/parity/src/lib.rs`, `src/parity/src/fpi.rs`,
  `src/parity/src/zielonka.rs`).

Rust collection types are modelled as follows: a `BTreeSet`/`HashSet` becomes a
Lean `List` used with membership semantics, a `HashMap` becomes an association
list, and iteration over an unordered Rust collection is modelled by iterating
over the corresponding list (the source iterates in an arbitrary but fixed
order).  Unbounded loops in the source are modelled by structural recursion on
an explicit fuel argument; wherever termination matters for a claim the fuel is
proved sufficient.  A Rust function that can panic is modelled with an `Option`
result, `none` standing for the panic.
-/

set_option maxHeartbeats 1600000

namespace LMC

/-- LTL expression tree, mirroring `Expr` in `src/ltl/src/formula.rs`. -/
inductive Expr : Type where
  | True : Expr
  | False : Expr
  | Not : Expr → Expr
  | Atomic : String → Expr
  | Next : Expr → Expr
  | Globally : Expr → Expr
  | Finally : Expr → Expr
  | Or : Expr → Expr → Expr
  | And : Expr → Expr → Expr
  | Until : Expr → Expr → Expr
  | WeakUntil : Expr → Expr → Expr
  | Release : Expr → Expr → Expr
  | StrongRelease : Expr → Expr → Expr
deriving DecidableEq, Repr

/-- Formula wrapper around a root expression (`Formula` in the source). -/
structure Formula : Type where
  root_expr : Expr
deriving DecidableEq, Repr

/-- Negation helper `Expr::negated` from the source: constants flip, a
double negation unwraps, and everything else is wrapped in `Not`. -/
def Expr.negated : Expr → Expr
  | .True => .False
  | .False => .True
  | .Not e => e
  | e => .Not e

/-- One rewriting pass `Expr::simplify` from the source, translated arm by
arm; the order of the overlapping match arms for `And`/`Or` follows the order
of the Rust match arms. -/
def Expr.simplify : Expr → Expr
  | .Not .True => .False
  | .Not .False => .True
  | .Not (.Atomic s) => .Not (.Atomic s)
  | .Not (.And l r) => .Or (.Not l.simplify) (.Not r.simplify)
  | .Not (.Or l r) => .And (.Not l.simplify) (.Not r.simplify)
  | .Not (.Next e) => .Next (.Not e.simplify)
  | .Not (.Finally e) => .Globally (.Not e.simplify)
  | .Not (.Globally e) => .Finally (.Not e.simplify)
  | .Not (.Until l r) => .Release (.Not l.simplify) (.Not r.simplify)
  | .Not (.Release l r) => .Until (.Not l.simplify) (.Not r.simplify)
  | .Not (.WeakUntil l r) => .Until (.Not r.simplify) (.And (.Not l.simplify) (.Not r.simplify))
  | .Not (.StrongRelease l r) => .Release (.Not r.simplify) (.Or (.Not l.simplify) (.Not r.simplify))
  | .Not (.Not e) => e.simplify
  | .True => .True
  | .False => .False
  | .Atomic s => .Atomic s
  | .Next e => .Next e.simplify
  | .And (.Next le) (.Next re) => .Next (.And le.simplify re.simplify)
  | .And .False _ => .False
  | .And _ .False => .False
  | .And .True e => e.simplify
  | .And e .True => e.simplify
  | .And l (.Not ir) => if l = ir then .False else .And l.simplify (Expr.Not ir).simplify
  | .And (.Not il) r => if r = il then .False else .And (Expr.Not il).simplify r.simplify
  | .And l r => .And l.simplify r.simplify
  | .Or (.Next le) (.Next re) => .Next (.Or le.simplify re.simplify)
  | .Or .True _ => .True
  | .Or _ .True => .True
  | .Or .False e => e.simplify
  | .Or e .False => e.simplify
  | .Or l r => .Or l.simplify r.simplify
  | .Until l r => .Until l.simplify r.simplify
  | .Release l r => .Release l.simplify r.simplify
  | .WeakUntil l r => .Release r.simplify (.Or l.simplify r.simplify)
  | .Globally e => .Release .False e.simplify
  | .Finally e => .Until .True e.simplify
  | .StrongRelease l r => .Until r.simplify (.And l.simplify r.simplify)

/-- Termination measure for the rewrite-until-unchanged loop of `Expr::pnf`:
each pass of `simplify` that changes the expression strictly decreases it. -/
def Expr.mu : Expr → Nat
  | .True => 2
  | .False => 2
  | .Atomic _ => 2
  | .Not e => e.mu ^ 2
  | .Next e => e.mu + 1
  | .And l r => l.mu * r.mu + 1
  | .Or l r => l.mu * r.mu + 1
  | .Until l r => l.mu * r.mu + 1
  | .Release l r => l.mu * r.mu + 1
  | .Globally e => 2 * e.mu + 2
  | .Finally e => 2 * e.mu + 2
  | .WeakUntil l r => (l.mu * r.mu + 1) ^ 2
  | .StrongRelease l r => (l.mu * r.mu + 1) ^ 2

/-- Node count of an expression, used for strong induction. -/
def Expr.esize : Expr → Nat
  | .True => 1
  | .False => 1
  | .Atomic _ => 1
  | .Not e => e.esize + 1
  | .Next e => e.esize + 1
  | .Globally e => e.esize + 1
  | .Finally e => e.esize + 1
  | .And l r => l.esize + r.esize + 1
  | .Or l r => l.esize + r.esize + 1
  | .Until l r => l.esize + r.esize + 1
  | .WeakUntil l r => l.esize + r.esize + 1
  | .Release l r => l.esize + r.esize + 1
  | .StrongRelease l r => l.esize + r.esize + 1

/-- Fuel-bounded version of the `loop` in `Expr::pnf`: repeat `simplify`
until a pass leaves the expression unchanged.  The source loops without a
bound; `pnfLoop_fixpoint` below shows the fuel used by `Expr.pnf` always
suffices, so the two agree. -/
def Expr.pnfLoop : Nat → Expr → Expr
  | 0, e => e
  | n + 1, e =>
    let e2 := e.simplify
    if e2 = e then e else Expr.pnfLoop n e2

/-- Positive-normal-form rewriting `Expr::pnf` from the source: one pass of
`simplify`, then the rewrite-until-unchanged loop. -/
def Expr.pnf (e : Expr) : Expr :=
  Expr.pnfLoop (Expr.mu e.simplify) e.simplify

/-- Formula-level `Formula::pnf`. -/
def Formula.pnf (f : Formula) : Formula :=
  { root_expr := f.root_expr.pnf }

/-- The positive-normal-form shape stated by the specification: no
`Globally`, `Finally`, `WeakUntil` or `StrongRelease` node, and `Not` only
directly above an atomic proposition. -/
def Expr.isPNF : Expr → Bool
  | .True => true
  | .False => true
  | .Atomic _ => true
  | .Not (.Atomic _) => true
  | .Not _ => false
  | .Next e => e.isPNF
  | .And l r => l.isPNF && r.isPNF
  | .Or l r => l.isPNF && r.isPNF
  | .Until l r => l.isPNF && r.isPNF
  | .Release l r => l.isPNF && r.isPNF
  | .Globally _ => false
  | .Finally _ => false
  | .WeakUntil _ _ => false
  | .StrongRelease _ _ => false


/-- Union with set semantics: models `BTreeSet::extend` on ordered sets (the
result holds exactly the elements of both arguments). -/
def listUnion {α : Type} [DecidableEq α] (xs ys : List α) : List α :=
  xs ++ ys.filter (fun y => decide (y ∉ xs))

/-- Constant test used by the source when skipping `True`/`False`. -/
def Expr.isConst : Expr → Bool
  | .True => true
  | .False => true
  | _ => false

/-- Positive subformulas, `Expr::subformula` from the source: a `Not` node
contributes only its child's subformulas, every other node contributes itself
and its children's subformulas. -/
def Expr.subformulaList : Expr → List Expr
  | .False => [.False]
  | .True => [.True]
  | .Atomic s => [.Atomic s]
  | .Not ex => ex.subformulaList
  | .Next ex => listUnion [.Next ex] ex.subformulaList
  | .Globally ex => listUnion [.Globally ex] ex.subformulaList
  | .Finally ex => listUnion [.Finally ex] ex.subformulaList
  | .And l r => listUnion [.And l r] (listUnion l.subformulaList r.subformulaList)
  | .Or l r => listUnion [.Or l r] (listUnion l.subformulaList r.subformulaList)
  | .Until l r => listUnion [.Until l r] (listUnion l.subformulaList r.subformulaList)
  | .WeakUntil l r => listUnion [.WeakUntil l r] (listUnion l.subformulaList r.subformulaList)
  | .Release l r => listUnion [.Release l r] (listUnion l.subformulaList r.subformulaList)
  | .StrongRelease l r =>
    listUnion [.StrongRelease l r] (listUnion l.subformulaList r.subformulaList)

/-- Closure `Expr::closure` from the source: the positive subformulas together
with their negations (constants are kept as they are). -/
def Expr.closureList (e : Expr) : List Expr :=
  listUnion e.subformulaList
    (e.subformulaList.map (fun f => if f.isConst then f else .Not f))

/-- Formula-level `Formula::closure`. -/
def Formula.closure (f : Formula) : List Expr :=
  f.root_expr.closureList

/-- Completion step inside `Formula::elementary`: for every non-constant
member of the closure that is missing from the candidate set, insert its
negation.  The source inserts while iterating over the closure; since closure
members are never `Not`-headed while the inserted expressions always are, the
inserted elements never change a later membership test, so the batch form used
here is equivalent. -/
def completeSet (cl s : List Expr) : List Expr :=
  s ++ (cl.filter (fun f => !f.isConst && !(decide (f ∈ s)))).map Expr.Not

/-- Local-consistency side conditions of `satisfies` from the source, one arm
per connective (the catch-all arm is `true`). -/
def satisfiesInner (s : List Expr) (e : Expr) : Bool :=
  match e with
  | .True => decide (Expr.True ∈ s)
  | .And l r =>
    (decide (Expr.And l r ∈ s) && decide (l ∈ s) && decide (r ∈ s)) ||
      (!decide (Expr.And l r ∈ s) && !(decide (l ∈ s) && decide (r ∈ s)))
  | .Or l r =>
    (decide (Expr.Or l r ∈ s) && (decide (l ∈ s) || decide (r ∈ s))) ||
      (!decide (Expr.Or l r ∈ s) && !decide (l ∈ s) && !decide (r ∈ s))
  | .Until l r =>
    (!decide (r ∈ s) || decide (Expr.Until l r ∈ s)) &&
      (!(decide (Expr.Until l r ∈ s) && decide (r.negated ∈ s)) || decide (l ∈ s))
  | .Release l r =>
    (!(decide (l ∈ s) && decide (r ∈ s)) || decide (Expr.Release l r ∈ s)) &&
      (!(decide (Expr.Release l r ∈ s) && decide (l.negated ∈ s)) || decide (r ∈ s))
  | _ => true

/-- The `satisfies` predicate from the source: a `False` member is rejected
outright, everything else requires the formula or its negation to be present
together with the local-consistency condition. -/
def satisfies (s : List Expr) (e : Expr) : Bool :=
  match e with
  | .False => !decide (Expr.False ∈ s)
  | e => (decide (e ∈ s) || decide (e.negated ∈ s)) && satisfiesInner s e

/-- Elementary sets `Formula::elementary` from the source: every subset of the
positive subformulas, completed with the missing negations, kept when every
closure member satisfies the consistency predicate. -/
def Formula.elementary (f : Formula) : List (List Expr) :=
  let closure := f.root_expr.subformulaList
  (closure.sublists.map (completeSet closure)).filter
    (fun s => closure.all (fun e => satisfies s e))

/-- Atom collection `Expr::alphabet` from the source. -/
def Expr.alphabetList : Expr → List Expr
  | .True => []
  | .False => []
  | .Atomic s => [.Atomic s]
  | .Next e => e.alphabetList
  | .Globally e => e.alphabetList
  | .Finally e => e.alphabetList
  | .Not e => e.alphabetList
  | .And l r => listUnion l.alphabetList r.alphabetList
  | .Or l r => listUnion l.alphabetList r.alphabetList
  | .Until l r => listUnion l.alphabetList r.alphabetList
  | .WeakUntil l r => listUnion l.alphabetList r.alphabetList
  | .Release l r => listUnion l.alphabetList r.alphabetList
  | .StrongRelease l r => listUnion l.alphabetList r.alphabetList

/-- Formula-level `Formula::alphabet`: the atoms of the formula together with
their negations. -/
def Formula.alphabet (f : Formula) : List Expr :=
  let a := f.root_expr.alphabetList
  listUnion a ((a.filter (fun e => !e.isConst)).map Expr.Not)


/-- A word and an omega-word prefix pair, `Trace` from `src/buchi/src/nba.rs`. -/
structure Trace : Type where
  words : List String
  omega_words : List String
deriving DecidableEq, Repr

/-- Buchi automaton from `src/buchi/src/nba.rs`.  States are the keys of the
`states` hash map; the transition map becomes a list of labelled edges
`(source, word, target)` with set semantics; `accepting_sets` becomes a list
of state-id sets enumerated in a fixed order (the source iterates its
`HashSet` in an arbitrary but fixed order); the display-only `labels` map is
not modelled. -/
structure Buchi : Type where
  stateIds : List Nat
  trans : List (Nat × String × Nat)
  initial : List Nat
  accepting : List (List Nat)
  size : Nat
deriving DecidableEq, Repr

/-- Association-list lookup, modelling `HashMap::get`. -/
def lookupA {β : Type} (m : List (Nat × β)) (k : Nat) : Option β :=
  (m.find? (fun p => decide (p.1 = k))).map (fun p => p.2)

/-- Set equality test on id lists, modelling equality of Rust state sets. -/
def setEqL (xs ys : List Nat) : Bool :=
  xs.all (fun x => decide (x ∈ ys)) && ys.all (fun y => decide (y ∈ xs))

/-- Words labelling transitions out of `q`. -/
def Buchi.wordsOf (A : Buchi) (q : Nat) : List String :=
  (A.trans.filter (fun t => decide (t.1 = q))).map (fun t => t.2.1)

/-- Successor set of `q` under word `w`. -/
def Buchi.succSet (A : Buchi) (q : Nat) (w : String) : List Nat :=
  (A.trans.filter (fun t => decide (t.1 = q) && decide (t.2.1 = w))).map (fun t => t.2.2)

/-- One expansion step of the reachable set. -/
def Buchi.stepSet (A : Buchi) (S : List Nat) : List Nat :=
  listUnion S (A.trans.filterMap (fun t => if t.1 ∈ S then some t.2.2 else none))

/-- States reachable from `q`, by iterating `stepSet` to a fixed point. -/
def Buchi.reachList (A : Buchi) (q : Nat) : List Nat :=
  (A.stepSet)^[A.stateIds.length + A.trans.length + 1] [q]

/-- Strongly connected component of `q`: the declared states mutually
reachable with `q`. -/
def Buchi.sccOf (A : Buchi) (q : Nat) : List Nat :=
  A.stateIds.filter (fun r => decide (r ∈ A.reachList q) && decide (q ∈ A.reachList r))

/-- The strongly connected components of the automaton.  The source computes
them with a recursive Tarjan (`Buchi::tarjans_scc`); they are modelled here by
their mathematical characterisation as mutual-reachability classes of the
declared states, which is what Tarjan computes. -/
def Buchi.tarjansScc (A : Buchi) : List (List Nat) :=
  (A.stateIds.map (fun q => A.sccOf q)).dedup

/-- Trivial-component test `Buchi::scc_is_trivial` from the source: a single
member whose transition map has no word whose successor set equals the
component itself. -/
def Buchi.sccIsTrivial (A : Buchi) (c : List Nat) : Bool :=
  match c with
  | [q] => !((A.wordsOf q).any (fun w => setEqL (A.succSet q w) c))
  | _ => false

/-- Degeneralization `Buchi::gnba_to_nba` from the source.  With at most one
accepting set the automaton is returned unchanged (the source clones).
Otherwise one copy of the state space is made per accepting set, the copy-`i`
state of `q` getting id `q + size * i`; within copy `i` the transitions of a
state belonging to the `i`-th accepting set are redirected to the next copy
(wrapping around); the initial states keep their ids (copy 0); the single
accepting set is the last accepting set placed in the last copy. -/
def Buchi.gnbaToNba (A : Buchi) : Buchi :=
  if A.accepting.length ≤ 1 then A
  else
    let k := A.accepting.length
    { stateIds :=
        ((List.range k).map (fun i => A.stateIds.map (fun q => q + A.size * i))).flatten,
      trans :=
        ((List.range k).map (fun i =>
          A.trans.map (fun t =>
            if t.1 ∈ A.accepting.getD i [] then
              (t.1 + A.size * i, t.2.1, (t.2.2 + A.size * i + A.size) % (A.size * k))
            else
              (t.1 + A.size * i, t.2.1, t.2.2 + A.size * i)))).flatten,
      initial := A.initial,
      accepting := [(A.accepting.getD (k - 1) []).map (fun q => q + A.size * (k - 1))],
      size := A.size * k }

/-- Search step of `Buchi::constrained_cycle_searcher`: scan the transitions
of the popped state whose targets stay inside the component; either the
initial state is reached again (left: the cycle's words) or the queue and the
visited map are extended (right). -/
def cycleExpand (A : Buchi) (states : List Nat) (init q : Nat)
    (queue : List Nat) (vis : List (Nat × List String)) :
    (List String) ⊕ (List Nat × List (Nat × List String)) :=
  (A.trans.filter (fun t => decide (t.1 = q) && decide (t.2.2 ∈ states))).foldl
    (fun acc t =>
      match acc with
      | .inl tr => .inl tr
      | .inr (qu, vis) =>
        if t.2.2 = init then .inl ((lookupA vis q).getD [] ++ [t.2.1])
        else if (lookupA vis t.2.2).isSome then .inr (qu, vis)
        else .inr (t.2.2 :: qu, (t.2.2, (lookupA vis q).getD [] ++ [t.2.1]) :: vis))
    (.inr (queue, vis))

/-- Fuel-bounded loop of `Buchi::constrained_cycle_searcher`.  The outer
`none` models fuel exhaustion (the source loop always terminates because every
state is pushed at most once); `some none` is the source's `None` result and
`some (some w)` a found cycle. -/
def cycleLoop (A : Buchi) (states : List Nat) (init : Nat) :
    Nat → List Nat → List (Nat × List String) → Option (Option (List String))
  | 0, _, _ => none
  | _ + 1, [], _ => some none
  | fuel + 1, q :: queue, vis =>
    match cycleExpand A states init q queue vis with
    | .inl tr => some (some tr)
    | .inr (qu, vis) => cycleLoop A states init fuel qu vis

/-- Constrained cycle search from the source, seeded like the Rust function
with the initial state visited and queued. -/
def Buchi.cycleSearch (A : Buchi) (init : Nat) (states : List Nat) :
    Option (Option (List String)) :=
  cycleLoop A states init (A.stateIds.length + A.trans.length + 2) [init] [(init, [])]

/-- Expansion step of the reachability search in `Buchi::verify`: push every
unvisited successor of `q`, recording the word path that reached it. -/
def verifyExpand (A : Buchi) (q : Nat) (queue : List Nat)
    (vis : List (Nat × List String)) : List Nat × List (Nat × List String) :=
  (A.trans.filter (fun t => decide (t.1 = q))).foldl
    (fun (acc : List Nat × List (Nat × List String)) t =>
      if (lookupA acc.2 t.2.2).isSome then acc
      else (t.2.2 :: acc.1, (t.2.2, (lookupA acc.2 q).getD [] ++ [t.2.1]) :: acc.2))
    (queue, vis)

/-- Fuel-bounded depth-first loop of `Buchi::verify`.  Reaching an accepting
state inside a non-trivial component produces the counterexample trace; the
outer `none` models fuel exhaustion or one of the source's `unwrap` panics
(neither is reachable from a well-formed automaton). -/
def verifyLoop (A : Buchi) (sccs : List (List Nat)) (accepting : List Nat) :
    Nat → List Nat → List (Nat × List String) →
    Option (Option Trace × List (Nat × List String))
  | 0, _, _ => none
  | _ + 1, [], vis => some (none, vis)
  | fuel + 1, q :: queue, vis =>
    if q ∈ accepting then
      match (sccs.filter (fun c => decide (q ∈ c))).head? with
      | none => none
      | some scc =>
        match A.cycleSearch q scc with
        | none => none
        | some none => none
        | some (some w) => some (some ⟨(lookupA vis q).getD [], w⟩, vis)
    else
      let next := verifyExpand A q queue vis
      verifyLoop A sccs accepting fuel next.1 next.2

/-- The `for initial_state in initial_states` loop of `Buchi::verify`: run the
depth-first search from every not-yet-visited initial state, sharing the
visited map. -/
def verifySearch (A : Buchi) (sccs : List (List Nat)) (accepting : List Nat) :
    List Nat → List (Nat × List String) → Option (Option Trace)
  | [], _ => some none
  | init :: rest, vis =>
    if (lookupA vis init).isSome then verifySearch A sccs accepting rest vis
    else
      match verifyLoop A sccs accepting (A.stateIds.length + A.trans.length + 2)
          [init] ((init, []) :: vis) with
      | none => none
      | some (none, vis2) => verifySearch A sccs accepting rest vis2
      | some (some tr, _) => some (some tr)

/-- Emptiness check `Buchi::verify` from the source.  `some none` models
`Ok(())` (language empty), `some (some t)` models `Err(t)` (counterexample
trace), and `none` models a panic or fuel exhaustion, neither of which is
reachable from a well-formed automaton. -/
def Buchi.verify (A : Buchi) : Option (Option Trace) :=
  let sccs := A.tarjansScc.filter (fun c => !A.sccIsTrivial c)
  if A.accepting.any (fun set => set.any (fun f => sccs.all (fun c => decide (f ∉ c)))) then
    some none
  else if sccs.all (fun c => A.sccIsTrivial c) then
    some none
  else
    let nba := A.gnbaToNba
    let sccs2 := nba.tarjansScc.filter (fun c => !nba.sccIsTrivial c)
    let acc := nba.accepting.flatten
    let acc := if acc.isEmpty then sccs2.filterMap (fun scc => scc.head?) else acc
    verifySearch nba sccs2 acc nba.initial []


/-- Concrete GNBA exhibiting the accepting-set flaw of `Buchi::verify`:
states `{0, 1}`, a single self-loop `0 --a--> 0`, initial state `0`, one
accepting set `{0, 1}`. -/
def cOneAutomaton : Buchi :=
  { stateIds := [0, 1], trans := [(0, "a", 0)], initial := [0],
    accepting := [[0, 1]], size := 2 }

/-- Concrete GNBA with two accepting sets used to witness the
degeneralization theorems. -/
def cFourAutomaton : Buchi :=
  { stateIds := [0, 1], trans := [(0, "a", 1), (1, "a", 0)], initial := [0],
    accepting := [[0], [1]], size := 2 }


/-- Bare-printing test from `Expr::fmt_braces`: these shapes print without
surrounding parentheses. -/
def Expr.bare : Expr → Bool
  | .Atomic _ => true
  | .False => true
  | .True => true
  | .Not _ => true
  | .Next _ => true
  | _ => false

/-- The `Display` implementation for `Expr` from the source, rendering to a
character list; operands are wrapped in parentheses exactly when
`fmt_braces` does so. -/
def Expr.printE : Expr → List Char
  | .Atomic s => s.toList
  | .True => "true".toList
  | .False => "false".toList
  | .Finally ex =>
    "F ".toList ++ (if ex.bare then ex.printE else ('(' :: ex.printE) ++ [')'])
  | .Globally ex =>
    "G ".toList ++ (if ex.bare then ex.printE else ('(' :: ex.printE) ++ [')'])
  | .Next ex =>
    "X ".toList ++ (if ex.bare then ex.printE else ('(' :: ex.printE) ++ [')'])
  | .Not ex =>
    '¬' :: (if ex.bare then ex.printE else ('(' :: ex.printE) ++ [')'])
  | .And l r =>
    (if l.bare then l.printE else ('(' :: l.printE) ++ [')']) ++ " ∧ ".toList ++
      (if r.bare then r.printE else ('(' :: r.printE) ++ [')'])
  | .Or l r =>
    (if l.bare then l.printE else ('(' :: l.printE) ++ [')']) ++ " ∨ ".toList ++
      (if r.bare then r.printE else ('(' :: r.printE) ++ [')'])
  | .Until l r =>
    (if l.bare then l.printE else ('(' :: l.printE) ++ [')']) ++ " U ".toList ++
      (if r.bare then r.printE else ('(' :: r.printE) ++ [')'])
  | .WeakUntil l r =>
    (if l.bare then l.printE else ('(' :: l.printE) ++ [')']) ++ " W ".toList ++
      (if r.bare then r.printE else ('(' :: r.printE) ++ [')'])
  | .Release l r =>
    (if l.bare then l.printE else ('(' :: l.printE) ++ [')']) ++ " R ".toList ++
      (if r.bare then r.printE else ('(' :: r.printE) ++ [')'])
  | .StrongRelease l r =>
    (if l.bare then l.printE else ('(' :: l.printE) ++ [')']) ++ " M ".toList ++
      (if r.bare then r.printE else ('(' :: r.printE) ++ [')'])

/-- The hand-written comparator `Expr::cmp` from the source (the inherent
method used by `print_set`, distinct from the derived ordering), translated
arm by arm in the source's arm order. -/
def Expr.cmpE : Expr → Expr → Ordering
  | .True, .True => .eq
  | .True, .False => .eq
  | .False, .True => .eq
  | .False, .False => .eq
  | .True, _ => .lt
  | .False, _ => .lt
  | .Not a, .Not b => a.cmpE b
  | .Not a, b =>
    match a.cmpE b with
    | .eq => .gt
    | o => o
  | a, .Not b =>
    match a.cmpE b with
    | .eq => .lt
    | o => o
  | .Atomic a, .Atomic b => compare a b
  | .Atomic _, .True => .gt
  | .Atomic _, .False => .gt
  | .Atomic _, _ => .lt
  | .Next a, .Next b => a.cmpE b
  | .Next _, .True | .Next _, .False | .Next _, .Atomic _ => .gt
  | .Next _, _ => .lt
  | .Globally a, .Globally b => a.cmpE b
  | .Globally _, .True | .Globally _, .False | .Globally _, .Atomic _
  | .Globally _, .Next _ => .gt
  | .Globally _, _ => .lt
  | .Finally a, .Finally b => a.cmpE b
  | .Finally _, .True | .Finally _, .False | .Finally _, .Atomic _
  | .Finally _, .Next _ | .Finally _, .Globally _ => .gt
  | .Finally _, _ => .lt
  | .Or a1 a2, .Or b1 b2 =>
    match a1.cmpE b1 with
    | .eq => a2.cmpE b2
    | _ => a1.cmpE b2
  | .Or _ _, .True | .Or _ _, .False | .Or _ _, .Atomic _ | .Or _ _, .Next _
  | .Or _ _, .Globally _ | .Or _ _, .Finally _ => .gt
  | .Or _ _, _ => .lt
  | .And a1 a2, .And b1 b2 =>
    match a1.cmpE b1 with
    | .eq => a2.cmpE b2
    | _ => a1.cmpE b2
  | .And _ _, .True | .And _ _, .False | .And _ _, .Atomic _ | .And _ _, .Next _
  | .And _ _, .Globally _ | .And _ _, .Finally _ | .And _ _, .Or _ _ => .gt
  | .And _ _, _ => .lt
  | .Until a1 a2, .Until b1 b2 =>
    match a1.cmpE b1 with
    | .eq => a2.cmpE b2
    | _ => a1.cmpE b2
  | .Until _ _, .WeakUntil _ _ | .Until _ _, .Release _ _
  | .Until _ _, .StrongRelease _ _ => .lt
  | .Until _ _, _ => .gt
  | .WeakUntil a1 a2, .WeakUntil b1 b2 =>
    match a1.cmpE b1 with
    | .eq => a2.cmpE b2
    | _ => a1.cmpE b2
  | .WeakUntil _ _, .Release _ _ | .WeakUntil _ _, .StrongRelease _ _ => .lt
  | .WeakUntil _ _, _ => .gt
  | .Release a1 a2, .Release b1 b2 =>
    match a1.cmpE b1 with
    | .eq => a2.cmpE b2
    | _ => a1.cmpE b2
  | .Release _ _, .StrongRelease _ _ => .lt
  | .Release _ _, _ => .gt
  | .StrongRelease a1 a2, .StrongRelease b1 b2 =>
    match a1.cmpE b1 with
    | .eq => a2.cmpE b2
    | _ => a1.cmpE b2
  | .StrongRelease _ _, _ => .gt

/-- Insertion step of a stable sort by `cmpE`. -/
def insertSorted (e : Expr) : List Expr → List Expr
  | [] => [e]
  | x :: xs =>
    match Expr.cmpE e x with
    | .lt => e :: x :: xs
    | _ => x :: insertSorted e xs

/-- Stable sort by the source comparator, modelling `sorted_by(Expr::cmp)`. -/
def sortByCmp (l : List Expr) : List Expr :=
  l.foldr insertSorted []

/-- Set rendering `Expr::print_set` from the source: the members sorted by
the hand-written comparator, comma separated, between braces. -/
def printSet (set : List Expr) : String :=
  "\x7b" ++ String.intercalate ", " ((sortByCmp set).map (fun e => String.mk e.printE)) ++ "\x7d"

/-- Transition rule of the tableau construction in `ltl_to_gnba`
(`src/src/transform.rs`): a candidate target set is admissible when every
`Next`, `Until` and `Release` member of the closure passes its local
bi-implication. -/
def transTargetOk (s sp : List Expr) (e : Expr) : Bool :=
  match e with
  | .Next ex =>
    (decide (Expr.Next ex ∈ s) && decide (ex ∈ sp)) ||
      (!decide (Expr.Next ex ∈ s) && !decide (ex ∈ sp))
  | .Until a b =>
    if Expr.Until a b ∈ s then
      decide (b ∈ s) || (decide (a ∈ s) && decide (Expr.Until a b ∈ sp))
    else
      !(decide (b ∈ s) || (decide (a ∈ s) && decide (Expr.Until a b ∈ sp)))
  | .Release a b =>
    if Expr.Release a b ∈ s then
      (decide (a ∈ s) && decide (b ∈ s)) ||
        (decide (b ∈ s) && decide (Expr.Release a b ∈ sp))
    else
      !((decide (a ∈ s) && decide (b ∈ s)) ||
        (decide (b ∈ s) && decide (Expr.Release a b ∈ sp)))
  | _ => true

/-- Deduplicating insertion into the accepting family, modelling
`HashSet::insert` of a `BTreeSet` of states (the inserted lists are canonical
ascending id lists, so list equality is set equality). -/
def insertAccSet (l : List (List Nat)) (s : List Nat) : List (List Nat) :=
  if s ∈ l then l else l ++ [s]

/-- The accepting-family loop of `ltl_to_gnba`: one accepting set per
`Until` member of the closure, holding the states whose elementary set either
misses the until-formula or contains its right-hand side. -/
def ltlAccepting (cl : List Expr) (elem : List (List Expr)) : List (List Nat) :=
  cl.foldl (fun acc e =>
    match e with
    | .Until a b =>
      insertAccSet acc ((List.range elem.length).filter
        (fun i => !decide (Expr.Until a b ∈ elem.getD i []) ||
          decide (b ∈ elem.getD i [])))
    | _ => acc) []

/-- The LTL-to-GNBA tableau translation `ltl_to_gnba` from
`src/src/transform.rs`: the formula is first brought into PNF; one state per
elementary set (its id the set's position); initial states those containing
the root formula; one accepting set per until-formula of the closure;
transitions labelled with the rendering of the elementary set's intersection
with the alphabet, targeting every elementary set passing all local
transition rules. -/
def ltlToGnba (f : Formula) : Buchi :=
  let formula := f.pnf
  let cl := formula.closure
  let elem := formula.elementary
  let alph := formula.alphabet
  let n := elem.length
  { stateIds := List.range n,
    trans := ((List.range n).map (fun i =>
      let s := elem.getD i []
      let lab := printSet (s.filter (fun e => decide (e ∈ alph)))
      ((List.range n).filter
        (fun j => cl.all (fun e => transTargetOk s (elem.getD j []) e))).map
        (fun j => (i, lab, j)))).flatten,
    initial := (List.range n).filter (fun i => decide (formula.root_expr ∈ elem.getD i [])),
    accepting := ltlAccepting cl elem,
    size := n }

/-- Formula whose closure contains an until-formula that `pnf` erases:
`false ∧ (a U b)`. -/
def cEightFormula : Formula :=
  Formula.mk (.And .False (.Until (.Atomic "a") (.Atomic "b")))

/-- An until-formula that is a fixed point of `pnf`. -/
def cEightWitnessFormula : Formula :=
  Formula.mk (.Until (.Atomic "a") (.Atomic "b"))


/-- Character-list version of `nom`'s `tag`: does the second list start with
the first? -/
def startsWithL : List Char → List Char → Bool
  | [], _ => true
  | _ :: _, [] => false
  | a :: as, b :: bs => if a = b then startsWithL as bs else false

/-- The `tag` combinator: consume the pattern or fail. -/
def tagP (t cs : List Char) : Option (List Char) :=
  if startsWithL t cs then some (cs.drop t.length) else none

/-- First-success alternative, modelling `nom::branch::alt`.  The source
distinguishes recoverable errors from incomplete input (the latter aborts the
whole alternative chain); both are collapsed to `none` here, so the modelled
parser accepts a superset of the source's language: `parseFormula cs = none`
still soundly witnesses that the source rejects `cs`, while acceptance is
claimed only on inputs where every earlier alternative fails at its leading
tag, as happens on every input considered in this file. -/
def orElseO {α : Type} (a b : Option α) : Option α :=
  match a with
  | some x => some x
  | none => b

/-- Binary-operator step of the parser (`parse_and`, `parse_or`,
`parse_until`, ...): leading tag, first operand, a single space, second
operand. -/
def binStep (p : List Char → Option (Expr × List Char)) (mk : Expr → Expr → Expr)
    (t cs : List Char) : Option (Expr × List Char) :=
  (tagP t cs).bind (fun r =>
    (p r).bind (fun p1 =>
      match p1.2 with
      | ' ' :: r2 => (p r2).map (fun p2 => (mk p1.1 p2.1, p2.2))
      | _ => none))

/-- Unary-operator step of the parser (`parse_not`, `parse_next`, ...). -/
def unStep (p : List Char → Option (Expr × List Char)) (mk : Expr → Expr)
    (t cs : List Char) : Option (Expr × List Char) :=
  (tagP t cs).bind (fun r => (p r).map (fun q => (mk q.1, q.2)))

/-- The identifier alternative: `alphanumeric1`. -/
def parseAtom (cs : List Char) : Option (Expr × List Char) :=
  let t := cs.takeWhile (fun c => c.isAlphanum)
  if t.isEmpty then none else some (Expr.Atomic (String.mk t), cs.drop t.length)

/-- The recursive expression parser `Expr::parse` from
`src/ltl/src/formula.rs`, with its alternatives in the source's order.  The
recursion is bounded by fuel; every recursive call of the source consumes at
least the one-character tag, so the fuel used by `parseFormula` suffices. -/
def parseE : Nat → List Char → Option (Expr × List Char)
  | 0, _ => none
  | n + 1, cs =>
    orElseO ((tagP "false".toList cs).map (fun r => (Expr.False, r)))
    (orElseO ((tagP "true".toList cs).map (fun r => (Expr.True, r)))
    (orElseO (unStep (parseE n) Expr.Not "!".toList cs)
    (orElseO (binStep (parseE n) Expr.And "& ".toList cs)
    (orElseO (binStep (parseE n) Expr.Or "| ".toList cs)
    (orElseO (unStep (parseE n) Expr.Next "X ".toList cs)
    (orElseO (unStep (parseE n) Expr.Finally "F ".toList cs)
    (orElseO (unStep (parseE n) Expr.Globally "G ".toList cs)
    (orElseO (binStep (parseE n) Expr.Until "U ".toList cs)
    (orElseO (binStep (parseE n) Expr.WeakUntil "W ".toList cs)
    (orElseO (binStep (parseE n) Expr.Release "R ".toList cs)
    (orElseO (binStep (parseE n) Expr.StrongRelease "M ".toList cs)
    (parseAtom cs))))))))))))

/-- `Formula::parse` from the source: parse the whole input and reject any
leftover; the three error kinds of the source are collapsed to `none`. -/
def parseFormula (cs : List Char) : Option Formula :=
  match parseE (cs.length + 1) cs with
  | some (e, []) => some (Formula.mk e)
  | _ => none

/-- Chains of `Next` over `true`, `false` or an atom whose name is a
non-empty alphanumeric string not starting with `true` or `false`: on this
shape the printed form is again a word of the parser's prefix grammar. -/
inductive ChainForm : Expr → Prop where
  | tru : ChainForm .True
  | fls : ChainForm .False
  | atom (s : String) : s.toList ≠ [] →
      (∀ c ∈ s.toList, c.isAlphanum = true) →
      startsWithL "true".toList s.toList = false →
      startsWithL "false".toList s.toList = false →
      ChainForm (.Atomic s)
  | next (e : Expr) : ChainForm e → ChainForm (.Next e)

/-- The round-trip fragment: a chain, or one outer `Finally` or `Globally`
around a chain. -/
inductive RoundTripForm : Expr → Prop where
  | chain (e : Expr) : ChainForm e → RoundTripForm e
  | fin (e : Expr) : ChainForm e → RoundTripForm (.Finally e)
  | glob (e : Expr) : ChainForm e → RoundTripForm (.Globally e)


/-- Player, `Owner` from `src/parity/src/lib.rs`. -/
inductive Owner : Type where
  | Odd : Owner
  | Even : Owner
deriving DecidableEq, Repr

/-- Modelled from the spec: `Owner::from_usize` is declared outside `src/`
(only its callers are present); per the spec's `α = parity_of(p)` it maps an
even priority to `Even` and an odd one to `Odd`. -/
def Owner.fromUsize (p : Nat) : Owner :=
  if p % 2 = 0 then .Even else .Odd

/-- Modelled from the spec: the opponent `β = 1 − α` (`Owner::neg` is not
under `src/`). -/
def Owner.neg : Owner → Owner
  | .Even => .Odd
  | .Odd => .Even

/-- Vertex metadata `MetaData` from `src/parity/src/lib.rs`. -/
structure MetaData : Type where
  id : Nat
  label : Option String
  owner : Owner
  priority : Nat
deriving DecidableEq, Repr

/-- Parity game graph: a `petgraph::DiGraph` with `MetaData` node weights.
Nodes are indexed by their position in `nodes` (the `NodeIndex` space) and
edges are index pairs. -/
structure PGraph : Type where
  nodes : List MetaData
  edges : List (Nat × Nat)
deriving DecidableEq, Repr

/-- Number of vertices, `node_count`. -/
def PGraph.nodeCount (g : PGraph) : Nat :=
  g.nodes.length

/-- Node weight lookup (`node_weight` / indexing); the source panics on a
missing index, which no call site reaches. -/
def PGraph.meta (g : PGraph) (v : Nat) : MetaData :=
  g.nodes.getD v ⟨0, none, .Even, 0⟩

/-- Outgoing neighbors; the source iterates them in `petgraph`'s arbitrary
but fixed order, modelled by edge-list order. -/
def PGraph.succs (g : PGraph) (v : Nat) : List Nat :=
  (g.edges.filter (fun e => decide (e.1 = v))).map (fun e => e.2)

/-- Incoming neighbors (`neighbors_directed .. Incoming`). -/
def PGraph.preds (g : PGraph) (v : Nat) : List Nat :=
  (g.edges.filter (fun e => decide (e.2 = v))).map (fun e => e.1)

/-- All node indices, ascending (`node_indices`). -/
def PGraph.indices (g : PGraph) : List Nat :=
  List.range g.nodes.length

/-- `Graph::highest_priority` from the source: maximum priority over the
node weights, `None` on the empty graph. -/
def PGraph.highestPriority (g : PGraph) : Option Nat :=
  (g.nodes.map (fun n => n.priority)).max?

/-- Modelled from the spec: `player_vertices(α)`, the vertices owned by `α`
(declared outside `src/`). -/
def PGraph.playerVertices (g : PGraph) (pl : Owner) : List Nat :=
  g.indices.filter (fun v => decide ((g.meta v).owner = pl))

/-- Strategy record from `src/parity/src/lib.rs`. -/
structure Strategy : Type where
  winner : Owner
  next_node_id : Option Nat
deriving DecidableEq, Repr

/-- Solution record from `src/parity/src/lib.rs`: the two regions (the
referenced `MetaData` values) and the strategy map keyed by vertex id. -/
structure PSolution : Type where
  even_region : List MetaData
  odd_region : List MetaData
  strategy : List (Nat × Strategy)
deriving DecidableEq, Repr

/-- Modelled from the spec: `Solution::empty` (declared outside `src/`);
the pseudocode of the specification returns the empty partition with no
strategy entries for the empty game. -/
def PSolution.empty : PSolution :=
  { even_region := [], odd_region := [], strategy := [] }

/-- Set-style insertion into an id list. -/
def insertL (v : Nat) (z : List Nat) : List Nat :=
  if v ∈ z then z else v :: z

/-- Set-style removal from an id list. -/
def removeL (v : Nat) (z : List Nat) : List Nat :=
  z.filter (fun x => decide (x ≠ v))

/-- `HashMap::insert`: replaces an existing binding. -/
def insertAssoc {β : Type} (m : List (Nat × β)) (k : Nat) (b : β) : List (Nat × β) :=
  (k, b) :: m.filter (fun p => decide (p.1 ≠ k))

/-- `HashMap::extend`: the second map's bindings win. -/
def extendAssoc {β : Type} (m1 m2 : List (Nat × β)) : List (Nat × β) :=
  m2 ++ m1.filter (fun p => (lookupA m2 p.1).isNone)

/-- `Graph::winner` from `src/parity/src/lib.rs`: the priority's parity,
flipped for members of the distraction set `z`. -/
def PGraph.winner (g : PGraph) (v : Nat) (z : List Nat) : Nat :=
  let p := (g.meta v).priority % 2
  if v ∉ z then p else 1 - p

/-- `Graph::onestep` from the source: the owner looks for a one-step
successor currently winning for them. -/
def PGraph.onestep (g : PGraph) (v : Nat) (z : List Nat) : Nat × Option Nat :=
  match (g.meta v).owner with
  | .Even =>
    match (g.succs v).find? (fun n => decide (g.winner n z = 0)) with
    | some n => (0, some n)
    | none => (1, none)
  | .Odd =>
    match (g.succs v).find? (fun n => decide (g.winner n z = 1)) with
    | some n => (1, some n)
    | none => (0, none)

/-- Step 2 of the FPI outer loop: scan the unfrozen vertices of priority
`p` outside `z`, recording strategies and collecting distractions. -/
def fpiInner (g : PGraph) (p : Nat) (y : List Nat) (z : List Nat)
    (strategy : List (Nat × Option Nat)) :
    List Nat × List (Nat × Option Nat) × Bool :=
  y.foldl (fun acc v =>
    let os := g.onestep v acc.1
    let strategy := insertAssoc acc.2.1 v os.2
    if os.1 ≠ p % 2 then (insertL v acc.1, strategy, true) else (acc.1, strategy, acc.2.2))
    (z, strategy, false)

/-- Step 3 of the FPI outer loop: freeze or thaw the lower-priority
vertices after a change. -/
def fpiFreeze (g : PGraph) (p : Nat) (vs : List Nat) (z : List Nat)
    (frozen : List (Nat × Nat)) : List Nat × List (Nat × Nat) :=
  vs.foldl (fun acc v =>
    if g.winner v acc.1 = (p + 1) % 2 then (acc.1, insertAssoc acc.2 v p)
    else (removeL v acc.1, acc.2)) (z, frozen)

/-- The FPI outer loop (`while p <= max_priority` in `Graph::fpi`),
fuel-bounded; `none` models fuel exhaustion only. -/
def fpiLoop (g : PGraph) (maxp : Nat) :
    Nat → Nat → List Nat → List (Nat × Nat) → List (Nat × Option Nat) →
    Option (List Nat × List (Nat × Option Nat))
  | 0, _, _, _, _ => none
  | fuel + 1, p, z, frozen, strategy =>
    if p > maxp then some (z, strategy)
    else
      let y := g.indices.filter (fun v => decide ((g.meta v).priority = p) &&
        decide (lookupA frozen v = none) && decide (v ∉ z))
      let step := fpiInner g p y z strategy
      if step.2.2 then
        let vs := g.indices.filter (fun v => decide ((g.meta v).priority < p) &&
          decide (lookupA frozen v = none))
        let fz := fpiFreeze g p vs step.1 frozen
        fpiLoop g maxp fuel 0 fz.1 fz.2 step.2.1
      else
        let frozen2 := frozen.filter (fun pr =>
          !(decide ((g.meta pr.1).priority < p) && decide (pr.2 = p)))
        fpiLoop g maxp fuel (p + 1) step.1 frozen2 step.2.1

/-- The solution-packaging tail of `Graph::fpi`: partition the vertices by
`winner`, keep the owner-consistent strategy entries, and give every
remaining vertex a move-less entry with its region's owner. -/
def fpiFinish (g : PGraph) (z : List Nat) (strategy : List (Nat × Option Nat)) :
    PSolution :=
  let w0 := g.indices.filter (fun v => decide (g.winner v z = 0))
  let w1 := g.indices.filter (fun v => decide (g.winner v z ≠ 0))
  let s0 := w0.filter (fun v => decide ((g.meta v).owner = Owner.Even) &&
    decide ((lookupA strategy v).isSome = true))
  let s1 := w1.filter (fun v => decide ((g.meta v).owner = Owner.Odd) &&
    decide ((lookupA strategy v).isSome = true))
  let st := s0.foldl (fun m v => insertAssoc m (g.meta v).id
    ⟨(g.meta v).owner, ((lookupA strategy v).getD none).map (fun a => (g.meta a).id)⟩) []
  let st := s1.foldl (fun m v => insertAssoc m (g.meta v).id
    ⟨(g.meta v).owner, ((lookupA strategy v).getD none).map (fun a => (g.meta a).id)⟩) st
  let st := w0.foldl (fun m v =>
    if lookupA m (g.meta v).id = none then insertAssoc m (g.meta v).id ⟨.Even, none⟩
    else m) st
  let st := w1.foldl (fun m v =>
    if lookupA m (g.meta v).id = none then insertAssoc m (g.meta v).id ⟨.Odd, none⟩
    else m) st
  { even_region := w0.map (fun v => g.meta v),
    odd_region := w1.map (fun v => g.meta v),
    strategy := st }

/-- `Graph::fpi` from `src/parity/src/lib.rs` (duplicated in
`src/parity/src/fpi.rs`).  On the empty graph the source panics at
`highest_priority().expect(..)`; that panic is modelled by `none`. -/
def PGraph.fpi (g : PGraph) : Option PSolution :=
  match g.highestPriority with
  | none => none
  | some maxp =>
    match fpiLoop g maxp ((g.nodeCount + maxp + 2) * 2 ^ (g.nodeCount + maxp + 2))
        0 [] [] [] with
    | none => none
    | some zs => some (fpiFinish g zs.1 zs.2)

/-- One worklist iteration of `Graph::attract` from
`src/parity/src/zielonka.rs`: scan the predecessors of the popped vertex,
absorbing those the player controls or forces, and record a witnessing
strategy edge for player-owned members of the attractor. -/
def attractStep (g : PGraph) (player : Owner) (v : Nat)
    (acc : List Nat × List Nat × List (Nat × Nat)) :
    List Nat × List Nat × List (Nat × Nat) :=
  (g.preds v).foldl (fun acc u =>
    let (z, q, strategy) := acc
    let zq :=
      if u ∉ z ∧ (u ∈ g.playerVertices player ∨
          (g.succs u).all (fun s => decide (s ∈ z))) then
        (insertL u z, u :: q)
      else (z, q)
    let strategy :=
      if u ∈ zq.1 ∧ u ∈ g.playerVertices player ∧ lookupA strategy u = none then
        insertAssoc strategy u v
      else strategy
    (zq.1, zq.2, strategy)) acc

/-- The fuel-bounded worklist loop of `Graph::attract`; `none` models fuel
exhaustion only (every vertex is pushed at most once). -/
def attractLoop (g : PGraph) (player : Owner) :
    Nat → List Nat → List Nat → List (Nat × Nat) →
    Option (List Nat × List (Nat × Nat))
  | 0, _, _, _ => none
  | _ + 1, z, [], strategy => some (z, strategy)
  | fuel + 1, z, v :: q, strategy =>
    let acc := attractStep g player v (z, q, strategy)
    attractLoop g player fuel acc.1 acc.2.1 acc.2.2

/-- `Graph::attract` from `src/parity/src/zielonka.rs`. -/
def PGraph.attract (g : PGraph) (z0 : List Nat) (player : Owner)
    (strategy0 : List (Nat × Nat)) : Option (List Nat × List (Nat × Nat)) :=
  attractLoop g player (g.nodeCount + z0.length + g.edges.length + 2) z0 z0 strategy0

/-- `Graph::remove_vertices` from `src/parity/src/zielonka.rs`: petgraph's
`filter_map`, which keeps the remaining vertices in order and compacts the
index space. -/
def PGraph.removeVertices (g : PGraph) (purge : List Nat) : PGraph :=
  let keep := g.indices.filter (fun v => decide (v ∉ purge))
  { nodes := keep.map (fun v => g.meta v),
    edges := g.edges.filterMap (fun e =>
      match keep.indexOf? e.1, keep.indexOf? e.2 with
      | some i, some j => some (i, j)
      | _, _ => none) }

/-- The recursive `Graph::zielonka_r` from `src/parity/src/zielonka.rs`,
fuel-bounded (each level removes at least one vertex, so the fuel used by
`zielonka` suffices); `none` models fuel exhaustion only.  The recursive
results are combined exactly as in the source, including its use of
subgraph node indices in the enclosing graph. -/
def zielonkaR (g : PGraph) :
    Nat → Option (List Nat × List Nat × List (Nat × Nat) × List (Nat × Nat))
  | 0 => none
  | fuel + 1 =>
    if g.nodeCount = 0 then some ([], [], [], [])
    else
      match g.highestPriority with
      | none => none
      | some hp =>
        let playerAlpha := Owner.fromUsize hp
        let playerBeta := playerAlpha.neg
        let z := g.indices.filter (fun v => decide ((g.meta v).priority = hp))
        match g.attract z playerAlpha [] with
        | none => none
        | some (a, stratA) =>
          match zielonkaR (g.removeVertices a) fuel with
          | none => none
          | some (wEven, wOdd, stratEven, stratOdd) =>
            let wBeta := match playerAlpha with | .Even => wOdd | .Odd => wEven
            let stratBeta := match playerAlpha with | .Even => stratOdd | .Odd => stratEven
            match g.attract wBeta playerBeta stratBeta with
            | none => none
            | some (b, stratB) =>
              if setEqL b wBeta then
                let wAlpha0 := match playerAlpha with | .Even => wEven | .Odd => wOdd
                let stratAlpha0 :=
                  match playerAlpha with | .Even => stratEven | .Odd => stratOdd
                let wAlpha := wAlpha0 ++ a.filter (fun v => decide (v ∉ wAlpha0))
                let stratAlpha := extendAssoc stratAlpha0 stratA
                let stratAlpha := z.foldl (fun st v =>
                  if lookupA st v = none then
                    match (g.succs v).find? (fun t => decide (t ∈ wAlpha)) with
                    | some t => insertAssoc st v t
                    | none => st
                  else st) stratAlpha
                match playerAlpha with
                | .Even => some (wAlpha, wOdd, stratAlpha, stratOdd)
                | .Odd => some (wEven, wAlpha, stratEven, stratAlpha)
              else
                match zielonkaR (g.removeVertices b) fuel with
                | none => none
                | some (wE2, wO2, sE2, sO2) =>
                  match playerBeta with
                  | .Even =>
                    some (wE2 ++ b.filter (fun v => decide (v ∉ wE2)), wO2,
                      extendAssoc sE2 stratB, sO2)
                  | .Odd =>
                    some (wE2, wO2 ++ b.filter (fun v => decide (v ∉ wO2)),
                      sE2, extendAssoc sO2 stratB)

/-- `Graph::zielonka` from `src/parity/src/zielonka.rs`: the empty game
short-circuits to the empty solution; otherwise the recursive solver's
regions and strategies are packaged into a `Solution` keyed by vertex id. -/
def PGraph.zielonka (g : PGraph) : Option PSolution :=
  if g.nodeCount = 0 then some PSolution.empty
  else
    match zielonkaR g (g.nodeCount + 1) with
    | none => none
    | some (w0, w1, s0, s1) =>
      let strat := extendAssoc s0 s1
      let strategy := strat.foldl (fun m p =>
        insertAssoc m (g.meta p.1).id
          ⟨if p.1 ∈ w0 then Owner.Even else Owner.Odd, some (g.meta p.2).id⟩) []
      let strategy := g.indices.foldl (fun m v =>
        if lookupA m (g.meta v).id = none then
          insertAssoc m (g.meta v).id ⟨if v ∈ w0 then Owner.Even else Owner.Odd, none⟩
        else m) strategy
      some { even_region := w0.map (fun v => g.meta v),
             odd_region := w1.map (fun v => g.meta v),
             strategy := strategy }

/-- The parity game with zero vertices. -/
def emptyPGraph : PGraph :=
  { nodes := [], edges := [] }

end LMC

namespace LMC

theorem Expr.mu_ge_two : ∀ e : Expr, 2 ≤ e.mu := by
  intro e
  induction e with
  | True => simp [Expr.mu]
  | False => simp [Expr.mu]
  | Atomic s => simp [Expr.mu]
  | Not e ih => simp only [Expr.mu]; nlinarith
  | Next e ih => simp only [Expr.mu]; omega
  | Globally e ih => simp only [Expr.mu]; omega
  | Finally e ih => simp only [Expr.mu]; omega
  | Or l r ihl ihr => simp only [Expr.mu]; nlinarith
  | And l r ihl ihr => simp only [Expr.mu]; nlinarith
  | Until l r ihl ihr => simp only [Expr.mu]; nlinarith
  | WeakUntil l r ihl ihr => simp only [Expr.mu]; nlinarith [Nat.mul_le_mul ihl ihr]
  | Release l r ihl ihr => simp only [Expr.mu]; nlinarith
  | StrongRelease l r ihl ihr => simp only [Expr.mu]; nlinarith [Nat.mul_le_mul ihl ihr]

theorem Expr.esize_pos : ∀ e : Expr, 1 ≤ e.esize := by
  intro e
  cases e <;> simp [Expr.esize]

theorem LMCkey.sq_pair (a b sa sb : ℕ) (ha : 2 ≤ a) (hb : 2 ≤ b)
    (hsa : sa ≤ a) (hsb : sb ≤ b) : sa ^ 2 * sb ^ 2 + 1 < (a * b + 1) ^ 2 := by
  have h1 : sa ^ 2 * sb ^ 2 ≤ (a * b) ^ 2 := by
    have : sa * sb ≤ a * b := Nat.mul_le_mul hsa hsb
    calc sa ^ 2 * sb ^ 2 = (sa * sb) ^ 2 := by ring
    _ ≤ (a * b) ^ 2 := Nat.pow_le_pow_left this 2
  have h2 : (a * b + 1) ^ 2 = (a * b) ^ 2 + 2 * (a * b) + 1 := by ring
  nlinarith

theorem LMCkey.sq_next (a sa : ℕ) (ha : 2 ≤ a) (hsa : sa ≤ a) :
    sa ^ 2 + 1 < (a + 1) ^ 2 := by
  have : sa ^ 2 ≤ a ^ 2 := Nat.pow_le_pow_left hsa 2
  nlinarith

theorem LMCkey.sq_fin (a sa : ℕ) (ha : 2 ≤ a) (hsa : sa ≤ a) :
    2 * sa ^ 2 + 2 < (2 * a + 2) ^ 2 := by
  have : sa ^ 2 ≤ a ^ 2 := Nat.pow_le_pow_left hsa 2
  nlinarith

theorem LMCkey.quad (a b sa sb : ℕ) (ha : 2 ≤ a) (hb : 2 ≤ b)
    (hsa : sa ≤ a) (hsb : sb ≤ b) :
    sb ^ 2 * (sa ^ 2 * sb ^ 2 + 1) + 1 < ((a * b + 1) ^ 2) ^ 2 := by
  have h1 : sb ^ 2 ≤ b ^ 2 := Nat.pow_le_pow_left hsb 2
  have h2 : sa ^ 2 * sb ^ 2 ≤ (a * b) ^ 2 := by
    have : sa * sb ≤ a * b := Nat.mul_le_mul hsa hsb
    calc sa ^ 2 * sb ^ 2 = (sa * sb) ^ 2 := by ring
    _ ≤ (a * b) ^ 2 := Nat.pow_le_pow_left this 2
  have h3 : sb ^ 2 * (sa ^ 2 * sb ^ 2 + 1) ≤ b ^ 2 * ((a * b) ^ 2 + 1) :=
    Nat.mul_le_mul h1 (by omega)
  have h4 : ((a * b + 1) ^ 2) ^ 2 = (a*b)^2*(a*b)^2 + 4*(a*b)*(a*b)^2 + 6*(a*b)^2 + 4*(a*b) + 1 := by
    ring
  have h5 : b ^ 2 * ((a * b) ^ 2 + 1) < (a*b)^2*(a*b)^2 + 4*(a*b)*(a*b)^2 + 6*(a*b)^2 + 4*(a*b) := by
    have hb2 : b ^ 2 ≤ (a * b) ^ 2 := by
      have : b ≤ a * b := Nat.le_mul_of_pos_left b (by omega)
      exact Nat.pow_le_pow_left this 2
    have hx : 4 ≤ a * b := by nlinarith
    have l1 : b ^ 2 * ((a * b) ^ 2 + 1) ≤ (a*b)^2 * (a*b)^2 + (a*b)^2 := by nlinarith
    have l2 : (a*b)^2 < 4*(a*b)*(a*b)^2 + 6*(a*b)^2 + 4*(a*b) := by nlinarith
    omega
  omega

theorem LMCkey.dneg (a sa : ℕ) (ha : 2 ≤ a) (hsa : sa ≤ a) : sa < (a ^ 2) ^ 2 := by
  have h1 : (a ^ 2) ^ 2 = a * a * (a * a) := by ring
  have h2 : a * a ≤ a * a * (a * a) := Nat.le_mul_of_pos_right _ (by positivity)
  nlinarith

theorem LMCkey.nextpair (a b sa sb : ℕ) (ha : 2 ≤ a) (hb : 2 ≤ b)
    (hsa : sa ≤ a) (hsb : sb ≤ b) : sa * sb + 1 + 1 < (a + 1) * (b + 1) + 1 := by
  have : sa * sb ≤ a * b := Nat.mul_le_mul hsa hsb
  nlinarith

theorem LMCkey.derived (a sa : ℕ) (_ha : 2 ≤ a) (hsa : sa ≤ a) :
    2 * sa + 1 < 2 * a + 2 := by omega

theorem LMCkey.weak (a b sa sb : ℕ) (ha : 2 ≤ a) (hb : 2 ≤ b)
    (hsa : sa ≤ a) (hsb : sb ≤ b) : sb * (sa * sb + 1) + 1 < (a * b + 1) ^ 2 := by
  have h1 : sa * sb ≤ a * b := Nat.mul_le_mul hsa hsb
  have h2 : sb * (sa * sb + 1) ≤ b * (a * b + 1) := Nat.mul_le_mul hsb (by omega)
  nlinarith

end LMC

namespace LMC

theorem LMCkey.mul_lt_of (a b sa sb : ℕ) (ha : 2 ≤ a) (hb : 2 ≤ b)
    (hsa : sa ≤ a) (hsb : sb ≤ b) (h : sa < a ∨ sb < b) : sa * sb < a * b := by
  rcases h with h | h
  · nlinarith
  · nlinarith

theorem Expr.simplify_mu : ∀ (n : Nat) (e : Expr), e.esize ≤ n →
    (e.simplify = e ∨ e.simplify.mu < e.mu) := by
  intro n
  induction n with
  | zero =>
    intro e he
    exact absurd he (by have := Expr.esize_pos e; omega)
  | succ n ih =>
    intro e he
    have hle : ∀ f : Expr, f.esize ≤ n → f.simplify.mu ≤ f.mu := by
      intro f hf
      rcases ih f hf with h | h
      · rw [h]
      · omega
    have hbin : ∀ (l r : Expr), l.esize ≤ n → r.esize ≤ n →
        ((l.simplify = l ∧ r.simplify = r) ∨ l.simplify.mu * r.simplify.mu < l.mu * r.mu) := by
      intro l r hl hr
      rcases ih l hl with h1 | h1 <;> rcases ih r hr with h2 | h2
      · exact Or.inl ⟨h1, h2⟩
      · refine Or.inr ?_
        rw [h1]
        exact LMCkey.mul_lt_of _ _ _ _ (Expr.mu_ge_two l) (Expr.mu_ge_two r) le_rfl (hle r hr)
          (Or.inr h2)
      · refine Or.inr ?_
        rw [h2]
        exact LMCkey.mul_lt_of _ _ _ _ (Expr.mu_ge_two l) (Expr.mu_ge_two r) (hle l hl) le_rfl
          (Or.inl h1)
      · exact Or.inr (LMCkey.mul_lt_of _ _ _ _ (Expr.mu_ge_two l) (Expr.mu_ge_two r)
          (hle l hl) (hle r hr) (Or.inl h1))
    rw [Expr.simplify.eq_def]
    split
    -- Not True
    · exact Or.inr (by decide)
    -- Not False
    · exact Or.inr (by decide)
    -- Not (Atomic s)
    · exact Or.inl rfl
    -- Not (And l r)
    · rename_i l r
      simp only [Expr.esize] at he
      refine Or.inr ?_
      simp only [Expr.mu]
      exact LMCkey.sq_pair _ _ _ _ (Expr.mu_ge_two l) (Expr.mu_ge_two r)
        (hle l (by omega)) (hle r (by omega))
    -- Not (Or l r)
    · rename_i l r
      simp only [Expr.esize] at he
      refine Or.inr ?_
      simp only [Expr.mu]
      exact LMCkey.sq_pair _ _ _ _ (Expr.mu_ge_two l) (Expr.mu_ge_two r)
        (hle l (by omega)) (hle r (by omega))
    -- Not (Next e)
    · rename_i e
      simp only [Expr.esize] at he
      refine Or.inr ?_
      simp only [Expr.mu]
      exact LMCkey.sq_next _ _ (Expr.mu_ge_two e) (hle e (by omega))
    -- Not (Finally e)
    · rename_i e
      simp only [Expr.esize] at he
      refine Or.inr ?_
      simp only [Expr.mu]
      exact LMCkey.sq_fin _ _ (Expr.mu_ge_two e) (hle e (by omega))
    -- Not (Globally e)
    · rename_i e
      simp only [Expr.esize] at he
      refine Or.inr ?_
      simp only [Expr.mu]
      exact LMCkey.sq_fin _ _ (Expr.mu_ge_two e) (hle e (by omega))
    -- Not (Until l r)
    · rename_i l r
      simp only [Expr.esize] at he
      refine Or.inr ?_
      simp only [Expr.mu]
      exact LMCkey.sq_pair _ _ _ _ (Expr.mu_ge_two l) (Expr.mu_ge_two r)
        (hle l (by omega)) (hle r (by omega))
    -- Not (Release l r)
    · rename_i l r
      simp only [Expr.esize] at he
      refine Or.inr ?_
      simp only [Expr.mu]
      exact LMCkey.sq_pair _ _ _ _ (Expr.mu_ge_two l) (Expr.mu_ge_two r)
        (hle l (by omega)) (hle r (by omega))
    -- Not (WeakUntil l r)
    · rename_i l r
      simp only [Expr.esize] at he
      refine Or.inr ?_
      simp only [Expr.mu]
      exact LMCkey.quad _ _ _ _ (Expr.mu_ge_two l) (Expr.mu_ge_two r)
        (hle l (by omega)) (hle r (by omega))
    -- Not (StrongRelease l r)
    · rename_i l r
      simp only [Expr.esize] at he
      refine Or.inr ?_
      simp only [Expr.mu]
      exact LMCkey.quad _ _ _ _ (Expr.mu_ge_two l) (Expr.mu_ge_two r)
        (hle l (by omega)) (hle r (by omega))
    -- Not (Not e)
    · rename_i e
      simp only [Expr.esize] at he
      refine Or.inr ?_
      simp only [Expr.mu]
      exact LMCkey.dneg _ _ (Expr.mu_ge_two e) (hle e (by omega))
    -- True
    · exact Or.inl rfl
    -- False
    · exact Or.inl rfl
    -- Atomic
    · exact Or.inl rfl
    -- Next e
    · rename_i e
      simp only [Expr.esize] at he
      rcases ih e (by omega) with h | h
      · exact Or.inl (by rw [h])
      · refine Or.inr ?_
        simp only [Expr.mu]
        omega
    -- And (Next le) (Next re)
    · rename_i le re
      simp only [Expr.esize] at he
      refine Or.inr ?_
      simp only [Expr.mu]
      exact LMCkey.nextpair _ _ _ _ (Expr.mu_ge_two le) (Expr.mu_ge_two re)
        (hle le (by omega)) (hle re (by omega))
    -- And False a
    · rename_i a
      refine Or.inr ?_
      simp only [Expr.mu]
      have := Expr.mu_ge_two a
      omega
    -- And a False
    · rename_i a h1
      refine Or.inr ?_
      simp only [Expr.mu]
      have := Expr.mu_ge_two a
      omega
    -- And True e
    · rename_i e h1
      simp only [Expr.esize] at he
      refine Or.inr ?_
      simp only [Expr.mu]
      have := hle e (by omega)
      omega
    -- And e True
    · rename_i e h1 h2
      simp only [Expr.esize] at he
      refine Or.inr ?_
      simp only [Expr.mu]
      have := hle e (by omega)
      omega
    -- And l (Not ir)
    · rename_i l ir h1 h2
      simp only [Expr.esize] at he
      by_cases hc : l = ir
      · rw [if_pos hc]
        refine Or.inr ?_
        simp only [Expr.mu]
        nlinarith [Expr.mu_ge_two l, Expr.mu_ge_two ir]
      · rw [if_neg hc]
        rcases hbin l (.Not ir) (by omega) (by simp only [Expr.esize]; omega) with ⟨e1, e2⟩ | hlt
        · exact Or.inl (by rw [e1, e2])
        · refine Or.inr ?_
          simp only [Expr.mu] at hlt ⊢
          omega
    -- And (Not il) r
    · rename_i il r h1 h2 h3
      simp only [Expr.esize] at he
      by_cases hc : r = il
      · rw [if_pos hc]
        refine Or.inr ?_
        simp only [Expr.mu]
        nlinarith [Expr.mu_ge_two il, Expr.mu_ge_two r]
      · rw [if_neg hc]
        rcases hbin (.Not il) r (by simp only [Expr.esize]; omega) (by omega) with ⟨e1, e2⟩ | hlt
        · exact Or.inl (by rw [e1, e2])
        · refine Or.inr ?_
          simp only [Expr.mu] at hlt ⊢
          omega
    -- And l r catch-all
    · rename_i l r h1 h2 h3 h4 h5 h6 h7
      simp only [Expr.esize] at he
      rcases hbin l r (by omega) (by omega) with ⟨e1, e2⟩ | hlt
      · exact Or.inl (by rw [e1, e2])
      · refine Or.inr ?_
        simp only [Expr.mu]
        omega
    -- Or (Next le) (Next re)
    · rename_i le re
      simp only [Expr.esize] at he
      refine Or.inr ?_
      simp only [Expr.mu]
      exact LMCkey.nextpair _ _ _ _ (Expr.mu_ge_two le) (Expr.mu_ge_two re)
        (hle le (by omega)) (hle re (by omega))
    -- Or True a
    · rename_i a
      refine Or.inr ?_
      simp only [Expr.mu]
      have := Expr.mu_ge_two a
      omega
    -- Or a True
    · rename_i a h1
      refine Or.inr ?_
      simp only [Expr.mu]
      have := Expr.mu_ge_two a
      omega
    -- Or False e
    · rename_i e h1
      simp only [Expr.esize] at he
      refine Or.inr ?_
      simp only [Expr.mu]
      have := hle e (by omega)
      omega
    -- Or e False
    · rename_i e h1 h2
      simp only [Expr.esize] at he
      refine Or.inr ?_
      simp only [Expr.mu]
      have := hle e (by omega)
      omega
    -- Or l r catch-all
    · rename_i l r h1 h2 h3 h4 h5
      simp only [Expr.esize] at he
      rcases hbin l r (by omega) (by omega) with ⟨e1, e2⟩ | hlt
      · exact Or.inl (by rw [e1, e2])
      · refine Or.inr ?_
        simp only [Expr.mu]
        omega
    -- Until l r
    · rename_i l r
      simp only [Expr.esize] at he
      rcases hbin l r (by omega) (by omega) with ⟨e1, e2⟩ | hlt
      · exact Or.inl (by rw [e1, e2])
      · refine Or.inr ?_
        simp only [Expr.mu]
        omega
    -- Release l r
    · rename_i l r
      simp only [Expr.esize] at he
      rcases hbin l r (by omega) (by omega) with ⟨e1, e2⟩ | hlt
      · exact Or.inl (by rw [e1, e2])
      · refine Or.inr ?_
        simp only [Expr.mu]
        omega
    -- WeakUntil l r
    · rename_i l r
      simp only [Expr.esize] at he
      refine Or.inr ?_
      simp only [Expr.mu]
      exact LMCkey.weak _ _ _ _ (Expr.mu_ge_two l) (Expr.mu_ge_two r)
        (hle l (by omega)) (hle r (by omega))
    -- Globally e
    · rename_i e
      simp only [Expr.esize] at he
      refine Or.inr ?_
      simp only [Expr.mu]
      have := LMCkey.derived _ _ (Expr.mu_ge_two e) (hle e (by omega))
      omega
    -- Finally e
    · rename_i e
      simp only [Expr.esize] at he
      refine Or.inr ?_
      simp only [Expr.mu]
      have := LMCkey.derived _ _ (Expr.mu_ge_two e) (hle e (by omega))
      omega
    -- StrongRelease l r
    · rename_i l r
      simp only [Expr.esize] at he
      refine Or.inr ?_
      simp only [Expr.mu]
      exact LMCkey.weak _ _ _ _ (Expr.mu_ge_two l) (Expr.mu_ge_two r)
        (hle l (by omega)) (hle r (by omega))

end LMC

namespace LMC

theorem Expr.simplify_dec (e : Expr) : e.simplify = e ∨ e.simplify.mu < e.mu :=
  Expr.simplify_mu e.esize e le_rfl

theorem Expr.simplify_mu_le (e : Expr) : e.simplify.mu ≤ e.mu := by
  rcases Expr.simplify_dec e with h | h
  · rw [h]
  · omega

theorem Expr.pnfLoop_fixpoint : ∀ (n : Nat) (e : Expr), e.mu ≤ n →
    (Expr.pnfLoop n e).simplify = Expr.pnfLoop n e := by
  intro n
  induction n with
  | zero =>
    intro e he
    exact absurd he (by have := Expr.mu_ge_two e; omega)
  | succ n ih =>
    intro e he
    simp only [Expr.pnfLoop]
    by_cases h : e.simplify = e
    · simp only [if_pos h]
      exact h
    · simp only [if_neg h]
      refine ih e.simplify ?_
      rcases Expr.simplify_dec e with h2 | h2
      · exact absurd h2 h
      · omega

theorem Expr.pnfLoop_of_fix : ∀ (n : Nat) (e : Expr), e.simplify = e → Expr.pnfLoop n e = e := by
  intro n
  cases n with
  | zero => intro e _; rfl
  | succ n => intro e h; simp [Expr.pnfLoop, h]

theorem Expr.pnf_fix (e : Expr) : e.pnf.simplify = e.pnf :=
  Expr.pnfLoop_fixpoint _ _ le_rfl

theorem Expr.pnf_idem (e : Expr) : e.pnf.pnf = e.pnf := by
  show Expr.pnfLoop (Expr.mu e.pnf.simplify) e.pnf.simplify = e.pnf
  rw [Expr.pnf_fix e]
  exact Expr.pnfLoop_of_fix _ _ (Expr.pnf_fix e)

theorem Expr.fix_isPNF : ∀ (n : Nat) (e : Expr), e.esize ≤ n → e.simplify = e →
    e.isPNF = true := by
  intro n
  induction n with
  | zero =>
    intro e he
    exact absurd he (by have := Expr.esize_pos e; omega)
  | succ n ih =>
    intro e he h
    rw [Expr.simplify.eq_def] at h
    split at h
    -- Not True
    · simp at h
    -- Not False
    · simp at h
    -- Not (Atomic s)
    · rfl
    -- Not (And l r)
    · simp at h
    -- Not (Or l r)
    · simp at h
    -- Not (Next e)
    · simp at h
    -- Not (Finally e)
    · simp at h
    -- Not (Globally e)
    · simp at h
    -- Not (Until l r)
    · simp at h
    -- Not (Release l r)
    · simp at h
    -- Not (WeakUntil l r)
    · simp at h
    -- Not (StrongRelease l r)
    · simp at h
    -- Not (Not e)
    · rename_i e
      exfalso
      have h2 := Expr.simplify_mu_le e
      rw [h] at h2
      simp only [Expr.mu] at h2
      have h3 := LMCkey.dneg e.mu e.mu (Expr.mu_ge_two e) le_rfl
      omega
    -- True
    · rfl
    -- False
    · rfl
    -- Atomic
    · rfl
    -- Next e
    · rename_i e
      simp only [Expr.esize] at he
      injection h with h1
      simp only [Expr.isPNF]
      exact ih e (by omega) h1
    -- And (Next le) (Next re)
    · simp at h
    -- And False a
    · simp at h
    -- And a False
    · simp at h
    -- And True e
    · rename_i e h1
      exfalso
      have h2 := Expr.simplify_mu_le e
      rw [h] at h2
      simp only [Expr.mu] at h2
      have := Expr.mu_ge_two e
      omega
    -- And e True
    · rename_i e h1 h2
      exfalso
      have h3 := Expr.simplify_mu_le e
      rw [h] at h3
      simp only [Expr.mu] at h3
      have := Expr.mu_ge_two e
      omega
    -- And l (Not ir)
    · rename_i l ir h1 h2
      simp only [Expr.esize] at he
      by_cases hc : l = ir
      · rw [if_pos hc] at h
        simp at h
      · rw [if_neg hc] at h
        injection h with ha hb
        have pa := ih l (by omega) ha
        have pb := ih (.Not ir) (by simp only [Expr.esize]; omega) hb
        simp only [Expr.isPNF]
        simp [pa, pb]
    -- And (Not il) r
    · rename_i il r h1 h2 h3
      simp only [Expr.esize] at he
      by_cases hc : r = il
      · rw [if_pos hc] at h
        simp at h
      · rw [if_neg hc] at h
        injection h with ha hb
        have pa := ih (.Not il) (by simp only [Expr.esize]; omega) ha
        have pb := ih r (by omega) hb
        simp only [Expr.isPNF]
        simp [pa, pb]
    -- And l r catch-all
    · rename_i l r h1 h2 h3 h4 h5 h6 h7
      simp only [Expr.esize] at he
      injection h with ha hb
      have pa := ih l (by omega) ha
      have pb := ih r (by omega) hb
      simp only [Expr.isPNF]
      simp [pa, pb]
    -- Or (Next le) (Next re)
    · simp at h
    -- Or True a
    · simp at h
    -- Or a True
    · simp at h
    -- Or False e
    · rename_i e h1
      exfalso
      have h2 := Expr.simplify_mu_le e
      rw [h] at h2
      simp only [Expr.mu] at h2
      have := Expr.mu_ge_two e
      omega
    -- Or e False
    · rename_i e h1 h2
      exfalso
      have h3 := Expr.simplify_mu_le e
      rw [h] at h3
      simp only [Expr.mu] at h3
      have := Expr.mu_ge_two e
      omega
    -- Or l r catch-all
    · rename_i l r h1 h2 h3 h4 h5
      simp only [Expr.esize] at he
      injection h with ha hb
      have pa := ih l (by omega) ha
      have pb := ih r (by omega) hb
      simp only [Expr.isPNF]
      simp [pa, pb]
    -- Until l r
    · rename_i l r
      simp only [Expr.esize] at he
      injection h with ha hb
      have pa := ih l (by omega) ha
      have pb := ih r (by omega) hb
      simp only [Expr.isPNF]
      simp [pa, pb]
    -- Release l r
    · rename_i l r
      simp only [Expr.esize] at he
      injection h with ha hb
      have pa := ih l (by omega) ha
      have pb := ih r (by omega) hb
      simp only [Expr.isPNF]
      simp [pa, pb]
    -- WeakUntil l r
    · simp at h
    -- Globally e
    · simp at h
    -- Finally e
    · simp at h
    -- StrongRelease l r
    · simp at h

theorem Expr.pnf_isPNF (e : Expr) : e.pnf.isPNF = true :=
  Expr.fix_isPNF e.pnf.esize e.pnf le_rfl (Expr.pnf_fix e)

/-- C5: positive-normal-form rewriting is idempotent — `pnf (pnf φ) = pnf φ` —
and its result contains no `Globally`, `Finally`, `WeakUntil` or
`StrongRelease` node and no `Not` node whose child is not an atomic
proposition. -/
theorem c5_pnf_idempotent_and_normal (f : Formula) :
    f.pnf.pnf = f.pnf ∧ f.pnf.root_expr.isPNF = true := by
  constructor
  · show Formula.mk f.root_expr.pnf.pnf = Formula.mk f.root_expr.pnf
    rw [Expr.pnf_idem]
  · exact Expr.pnf_isPNF f.root_expr

theorem Expr.iterate_reaches_fix : ∀ (k : Nat) (e : Expr), e.mu ≤ k →
    ∃ n, Expr.simplify^[n + 1] e = Expr.simplify^[n] e := by
  intro k
  induction k with
  | zero =>
    intro e he
    exact absurd he (by have := Expr.mu_ge_two e; omega)
  | succ k ih =>
    intro e he
    rcases Expr.simplify_dec e with h | h
    · exact ⟨0, by simpa using h⟩
    · obtain ⟨n, hn⟩ := ih e.simplify (by omega)
      refine ⟨n + 1, ?_⟩
      rw [Function.iterate_succ_apply Expr.simplify (n + 1) e,
        Function.iterate_succ_apply Expr.simplify n e]
      exact hn

/-- C6: the rewrite-until-unchanged loop inside `pnf` terminates — iterating
the one-step `simplify` pass from any expression reaches, after finitely many
iterations, an expression that `simplify` leaves unchanged. -/
theorem c6_simplify_loop_terminates (e : Expr) :
    ∃ n, Expr.simplify^[n + 1] e = Expr.simplify^[n] e :=
  Expr.iterate_reaches_fix e.mu e le_rfl

end LMC

namespace LMC

theorem mem_listUnion {α : Type} [DecidableEq α] (x : α) (xs ys : List α) :
    x ∈ listUnion xs ys ↔ x ∈ xs ∨ x ∈ ys := by
  simp only [listUnion, List.mem_append, List.mem_filter, decide_eq_true_eq]
  by_cases h : x ∈ xs <;> simp [h]

theorem Expr.subformula_not_headed : ∀ (φ ψ : Expr), ψ ∈ φ.subformulaList →
    ∀ x, ψ ≠ .Not x := by
  intro φ
  induction φ with
  | True => intro ψ h x; simp [Expr.subformulaList] at h; simp [h]
  | False => intro ψ h x; simp [Expr.subformulaList] at h; simp [h]
  | Atomic s => intro ψ h x; simp [Expr.subformulaList] at h; simp [h]
  | Not e ih => intro ψ h x; exact ih ψ h x
  | Next e ih =>
    intro ψ h x
    rw [Expr.subformulaList, mem_listUnion] at h
    rcases h with h | h
    · simp at h; simp [h]
    · exact ih ψ h x
  | Globally e ih =>
    intro ψ h x
    rw [Expr.subformulaList, mem_listUnion] at h
    rcases h with h | h
    · simp at h; simp [h]
    · exact ih ψ h x
  | Finally e ih =>
    intro ψ h x
    rw [Expr.subformulaList, mem_listUnion] at h
    rcases h with h | h
    · simp at h; simp [h]
    · exact ih ψ h x
  | And l r ihl ihr =>
    intro ψ h x
    rw [Expr.subformulaList, mem_listUnion] at h
    rcases h with h | h
    · simp at h; simp [h]
    · rw [mem_listUnion] at h
      rcases h with h | h
      · exact ihl ψ h x
      · exact ihr ψ h x
  | Or l r ihl ihr =>
    intro ψ h x
    rw [Expr.subformulaList, mem_listUnion] at h
    rcases h with h | h
    · simp at h; simp [h]
    · rw [mem_listUnion] at h
      rcases h with h | h
      · exact ihl ψ h x
      · exact ihr ψ h x
  | Until l r ihl ihr =>
    intro ψ h x
    rw [Expr.subformulaList, mem_listUnion] at h
    rcases h with h | h
    · simp at h; simp [h]
    · rw [mem_listUnion] at h
      rcases h with h | h
      · exact ihl ψ h x
      · exact ihr ψ h x
  | WeakUntil l r ihl ihr =>
    intro ψ h x
    rw [Expr.subformulaList, mem_listUnion] at h
    rcases h with h | h
    · simp at h; simp [h]
    · rw [mem_listUnion] at h
      rcases h with h | h
      · exact ihl ψ h x
      · exact ihr ψ h x
  | Release l r ihl ihr =>
    intro ψ h x
    rw [Expr.subformulaList, mem_listUnion] at h
    rcases h with h | h
    · simp at h; simp [h]
    · rw [mem_listUnion] at h
      rcases h with h | h
      · exact ihl ψ h x
      · exact ihr ψ h x
  | StrongRelease l r ihl ihr =>
    intro ψ h x
    rw [Expr.subformulaList, mem_listUnion] at h
    rcases h with h | h
    · simp at h; simp [h]
    · rw [mem_listUnion] at h
      rcases h with h | h
      · exact ihl ψ h x
      · exact ihr ψ h x

theorem mem_completeSet (cl s : List Expr) (x : Expr) :
    x ∈ completeSet cl s ↔
      x ∈ s ∨ ∃ f ∈ cl, f.isConst = false ∧ f ∉ s ∧ x = .Not f := by
  simp only [completeSet, List.mem_append, List.mem_map, List.mem_filter,
    Bool.and_eq_true, Bool.not_eq_true', decide_eq_false_iff_not]
  constructor
  · rintro (h | ⟨f, ⟨⟨hf, hc, hns⟩, rfl⟩⟩)
    · exact Or.inl h
    · exact Or.inr ⟨f, hf, hc, hns, rfl⟩
  · rintro (h | ⟨f, hf, hc, hns, rfl⟩)
    · exact Or.inl h
    · exact Or.inr ⟨f, ⟨hf, hc, hns⟩, rfl⟩

theorem Expr.negated_of_plain (ψ : Expr) (hT : ψ ≠ .True) (hF : ψ ≠ .False)
    (hN : ∀ x, ψ ≠ .Not x) : ψ.negated = .Not ψ := by
  cases ψ with
  | True => exact absurd rfl hT
  | False => exact absurd rfl hF
  | Not x => exact absurd rfl (hN x)
  | _ => rfl

theorem Expr.isConst_false_of (ψ : Expr) (hT : ψ ≠ .True) (hF : ψ ≠ .False) :
    ψ.isConst = false := by
  cases ψ with
  | True => exact absurd rfl hT
  | False => exact absurd rfl hF
  | _ => rfl

theorem elementary_membership_split (f : Formula) (B : List Expr)
    (hB : B ∈ f.elementary) :
    ∃ s, s ⊆ f.root_expr.subformulaList ∧ B = completeSet f.root_expr.subformulaList s := by
  unfold Formula.elementary at hB
  rw [List.mem_filter] at hB
  obtain ⟨hB, -⟩ := hB
  rw [List.mem_map] at hB
  obtain ⟨s, hs, rfl⟩ := hB
  rw [List.mem_sublists] at hs
  exact ⟨s, hs.subset, rfl⟩

theorem completeSet_pos_mem (cl s : List Expr) (hsub : s ⊆ cl)
    (hnn : ∀ ψ ∈ cl, ∀ x, ψ ≠ Expr.Not x)
    (χ : Expr) (hχ : χ ∈ cl) (hc : χ.isConst = false)
    (hχn : ∀ x, χ ≠ Expr.Not x) :
    (χ ∈ completeSet cl s ↔ χ ∈ s) ∧ (Expr.Not χ ∈ completeSet cl s ↔ χ ∉ s) := by
  constructor
  · rw [mem_completeSet]
    constructor
    · rintro (h | ⟨g, hg, hgc, hgs, hx⟩)
      · exact h
      · exact absurd hx (hχn g)
    · exact Or.inl
  · rw [mem_completeSet]
    constructor
    · rintro (h | ⟨g, hg, hgc, hgs, hx⟩)
      · exact absurd rfl (hnn _ (hsub h) χ)
      · injection hx with hx
        rwa [hx]
    · intro h
      exact Or.inr ⟨χ, hχ, hc, h, rfl⟩

/-- C7: for every formula, every elementary set `B` and every non-constant
member `ψ` of the closure, exactly one of `ψ` and its negation belongs
to `B`. -/
theorem c7_elementary_consistent (f : Formula) (B : List Expr) (ψ : Expr)
    (hB : B ∈ f.elementary) (hψ : ψ ∈ f.root_expr.closureList)
    (h1 : ψ ≠ .True) (h2 : ψ ≠ .False) :
    (ψ ∈ B ∧ ψ.negated ∉ B) ∨ (ψ ∉ B ∧ ψ.negated ∈ B) := by
  obtain ⟨s, hsub, rfl⟩ := elementary_membership_split f B hB
  set cl := f.root_expr.subformulaList with hcl
  have hnn : ∀ χ ∈ cl, ∀ x, χ ≠ Expr.Not x := fun χ hχ => Expr.subformula_not_headed _ χ hχ
  rw [Expr.closureList, mem_listUnion] at hψ
  have main : ∀ χ ∈ cl, χ.isConst = false →
      ((χ ∈ completeSet cl s ∧ Expr.Not χ ∉ completeSet cl s) ∨
        (χ ∉ completeSet cl s ∧ Expr.Not χ ∈ completeSet cl s)) := by
    intro χ hχ hc
    obtain ⟨hp, hn⟩ := completeSet_pos_mem cl s hsub hnn χ hχ hc (hnn χ hχ)
    by_cases h : χ ∈ s
    · exact Or.inl ⟨hp.mpr h, fun hx => (hn.mp hx) h⟩
    · exact Or.inr ⟨fun hx => h (hp.mp hx), hn.mpr h⟩
  rcases hψ with hψ | hψ
  · have hc := Expr.isConst_false_of ψ h1 h2
    rw [Expr.negated_of_plain ψ h1 h2 (hnn ψ hψ)]
    exact main ψ hψ hc
  · rw [List.mem_map] at hψ
    obtain ⟨g, hg, hgeq⟩ := hψ
    by_cases hgc : g.isConst = true
    · rw [if_pos hgc] at hgeq
      subst hgeq
      have hc := Expr.isConst_false_of g h1 h2
      rw [Expr.negated_of_plain g h1 h2 (hnn g hg)]
      exact main g hg hc
    · rw [if_neg hgc] at hgeq
      subst hgeq
      have hres := main g hg (by simpa using hgc)
      have hneg : (Expr.Not g).negated = g := rfl
      rw [hneg]
      tauto

/-- Witness for C7 at the formula `a`, the elementary set `{a}` and the
closure member `a`. -/
theorem c7_witness :
    ([Expr.Atomic "a"] ∈ (Formula.mk (Expr.Atomic "a")).elementary) ∧
    (Expr.Atomic "a" ∈ (Expr.Atomic "a").closureList) ∧
    ((Expr.Atomic "a" ∈ ([Expr.Atomic "a"] : List Expr) ∧
        (Expr.Atomic "a").negated ∉ ([Expr.Atomic "a"] : List Expr)) ∨
      (Expr.Atomic "a" ∉ ([Expr.Atomic "a"] : List Expr) ∧
        (Expr.Atomic "a").negated ∈ ([Expr.Atomic "a"] : List Expr))) :=
  ⟨by decide, by decide,
    c7_elementary_consistent (Formula.mk (Expr.Atomic "a")) [Expr.Atomic "a"]
      (Expr.Atomic "a") (by decide) (by decide) (by decide) (by decide)⟩

end LMC

namespace LMC

/-- C1: the code violates the claimed characterisation of `verify`.  On
`cOneAutomaton` the emptiness check reports success (`some none` models
`Ok(())`) even though the non-trivial strongly connected component `{0}`
intersects every accepting set (so the claim, and the comment in the source
above the check, demand a counterexample trace; the word `a^ω` is accepted).
The flaw: the source returns `Ok` as soon as SOME state of an accepting set
lies outside every non-trivial component, instead of requiring ALL of them
to. -/
theorem c1_verify_flaw :
    cOneAutomaton.verify = some none ∧
    ∃ c ∈ cOneAutomaton.tarjansScc.filter (fun c => !cOneAutomaton.sccIsTrivial c),
      ∀ F ∈ cOneAutomaton.accepting, ∃ q, q ∈ c ∧ q ∈ F := by
  constructor
  · rfl
  · decide

theorem modshift (size k i q : ℕ) (hq : q < size) (hik : i < k) :
    (q + size * i + size) % (size * k) = q + size * ((i + 1) % k) := by
  rcases Nat.lt_or_ge (i + 1) k with h | h
  · rw [Nat.mod_eq_of_lt h]
    have h1 : q + size * i + size < size * (i + 2) := by nlinarith
    have h2 : size * (i + 2) ≤ size * k := Nat.mul_le_mul_left _ (by omega)
    rw [Nat.mod_eq_of_lt (by omega)]
    ring
  · have hk : i + 1 = k := by omega
    have h1 : q + size * i + size = q + size * k := by rw [← hk]; ring
    rw [h1, hk, Nat.mod_self, Nat.add_mod_right]
    have h2 : size ≤ size * k := Nat.le_mul_of_pos_right size (by omega)
    rw [Nat.mod_eq_of_lt (by omega)]
    ring

/-- C3: degeneralization size.  For a well-formed GNBA (distinct state ids
below `size`), `gnba_to_nba` yields `|Q| * max(|F|, 1)` states (still
distinct, so the modelled key list matches the key count of the source's
hash map), at most one accepting set, and with `|F| ≤ 1` it returns the
automaton unchanged (the source returns a clone). -/
theorem c3_gnba_to_nba_size (A : Buchi)
    (h1 : ∀ q ∈ A.stateIds, q < A.size) (h2 : A.stateIds.Nodup) :
    A.gnbaToNba.stateIds.length = A.stateIds.length * max A.accepting.length 1 ∧
    A.gnbaToNba.stateIds.Nodup ∧
    A.gnbaToNba.accepting.length ≤ 1 ∧
    (A.accepting.length ≤ 1 → A.gnbaToNba = A) := by
  by_cases hk : A.accepting.length ≤ 1
  · have heq : A.gnbaToNba = A := by simp [Buchi.gnbaToNba, hk]
    have hmax : max A.accepting.length 1 = 1 := by omega
    refine ⟨?_, ?_, ?_, fun _ => heq⟩
    · rw [heq, hmax]; omega
    · rw [heq]; exact h2
    · rw [heq]; exact hk
  · have hk2 : 2 ≤ A.accepting.length := by omega
    have hub : A.gnbaToNba =
        { stateIds := ((List.range A.accepting.length).map
            (fun i => A.stateIds.map (fun q => q + A.size * i))).flatten,
          trans := ((List.range A.accepting.length).map (fun i =>
            A.trans.map (fun t =>
              if t.1 ∈ A.accepting.getD i [] then
                (t.1 + A.size * i, t.2.1,
                  (t.2.2 + A.size * i + A.size) % (A.size * A.accepting.length))
              else
                (t.1 + A.size * i, t.2.1, t.2.2 + A.size * i)))).flatten,
          initial := A.initial,
          accepting := [(A.accepting.getD (A.accepting.length - 1) []).map
            (fun q => q + A.size * (A.accepting.length - 1))],
          size := A.size * A.accepting.length } := by
      rw [Buchi.gnbaToNba, if_neg hk]
    refine ⟨?_, ?_, ?_, fun h => absurd h hk⟩
    · rw [hub]
      simp only [List.length_flatten, List.map_map]
      have hconst : (List.range A.accepting.length).map
          (List.length ∘ fun i => A.stateIds.map (fun q => q + A.size * i)) =
          List.replicate A.accepting.length A.stateIds.length := by
        have hfun : (List.length ∘ fun i : Nat => A.stateIds.map (fun q => q + A.size * i)) =
            fun _ : Nat => A.stateIds.length := by
          funext i
          simp
        rw [hfun, List.map_const', List.length_range]
      rw [hconst, List.sum_replicate, smul_eq_mul]
      have hmax : max A.accepting.length 1 = A.accepting.length := by omega
      rw [hmax]
      ring
    · rw [hub]
      rw [List.nodup_flatten]
      constructor
      · intro l hl
        rw [List.mem_map] at hl
        obtain ⟨i, -, rfl⟩ := hl
        exact h2.map (fun a b hab => by omega)
      · have hp := List.pairwise_lt_range A.accepting.length
        refine (List.pairwise_map).mpr (hp.imp ?_)
        intro i j hij
        intro x hx hy
        rw [List.mem_map] at hx hy
        obtain ⟨q1, hq1, rfl⟩ := hx
        obtain ⟨q2, hq2, heq⟩ := hy
        have b1 := h1 q1 hq1
        have b2 := h1 q2 hq2
        have hsz : 0 < A.size := by omega
        have : A.size * i + A.size ≤ A.size * j := by nlinarith
        omega
    · rw [hub]
      simp

/-- Witness for C3 at a two-state GNBA with two accepting sets. -/
theorem c3_witness :
    ((∀ q ∈ cFourAutomaton.stateIds, q < cFourAutomaton.size) ∧
      cFourAutomaton.stateIds.Nodup) ∧
    (cFourAutomaton.gnbaToNba.stateIds.length =
        cFourAutomaton.stateIds.length * max cFourAutomaton.accepting.length 1 ∧
      cFourAutomaton.gnbaToNba.stateIds.Nodup ∧
      cFourAutomaton.gnbaToNba.accepting.length ≤ 1 ∧
      (cFourAutomaton.accepting.length ≤ 1 → cFourAutomaton.gnbaToNba = cFourAutomaton)) :=
  ⟨⟨by decide, by decide⟩, c3_gnba_to_nba_size cFourAutomaton (by decide) (by decide)⟩

/-- C4: structure of the degeneralized product for `|F| = k ≥ 2`.  Every
transition of copy `i` comes from a GNBA transition `(q, w, p)`, targeting
`(p, i)` except when `q ∈ F_i`, in which case it targets `(p, (i+1) mod k)`;
state `(q, i)` has id `q + i * |Q|`; the initial states are exactly the
original ones (copy 0); and the single accepting set is `F_(k-1)` placed in
copy `k-1`. -/
theorem c4_gnba_to_nba_product (A : Buchi) (hk : 2 ≤ A.accepting.length)
    (ht : ∀ t ∈ A.trans, t.2.2 < A.size) :
    (∀ x : Nat × String × Nat, x ∈ A.gnbaToNba.trans ↔
      ∃ i < A.accepting.length, ∃ t ∈ A.trans,
        x = (t.1 + A.size * i, t.2.1,
          if t.1 ∈ A.accepting.getD i [] then
            t.2.2 + A.size * ((i + 1) % A.accepting.length)
          else t.2.2 + A.size * i)) ∧
    (∀ q : Nat, q ∈ A.gnbaToNba.stateIds ↔
      ∃ i < A.accepting.length, ∃ p ∈ A.stateIds, q = p + A.size * i) ∧
    A.gnbaToNba.initial = A.initial ∧
    A.gnbaToNba.accepting =
      [(A.accepting.getD (A.accepting.length - 1) []).map
        (fun q => q + A.size * (A.accepting.length - 1))] := by
  have hneg : ¬ A.accepting.length ≤ 1 := by omega
  rw [Buchi.gnbaToNba, if_neg hneg]
  refine ⟨?_, ?_, rfl, rfl⟩
  · intro x
    simp only [List.mem_flatten, List.mem_map, List.mem_range]
    constructor
    · rintro ⟨l, ⟨i, hi, rfl⟩, hx⟩
      rw [List.mem_map] at hx
      obtain ⟨t, hmem, rfl⟩ := hx
      refine ⟨i, hi, t, hmem, ?_⟩
      by_cases hacc : t.1 ∈ A.accepting.getD i []
      · rw [if_pos hacc, if_pos hacc, modshift _ _ _ _ (ht t hmem) hi]
      · rw [if_neg hacc, if_neg hacc]
    · rintro ⟨i, hi, t, hmem, rfl⟩
      refine ⟨(A.trans.map (fun t =>
        if t.1 ∈ A.accepting.getD i [] then
          (t.1 + A.size * i, t.2.1,
            (t.2.2 + A.size * i + A.size) % (A.size * A.accepting.length))
        else (t.1 + A.size * i, t.2.1, t.2.2 + A.size * i))), ⟨i, hi, rfl⟩, ?_⟩
      rw [List.mem_map]
      refine ⟨t, hmem, ?_⟩
      by_cases hacc : t.1 ∈ A.accepting.getD i []
      · rw [if_pos hacc, if_pos hacc, modshift _ _ _ _ (ht t hmem) hi]
      · rw [if_neg hacc, if_neg hacc]
  · intro q
    simp only [List.mem_flatten, List.mem_map, List.mem_range]
    constructor
    · rintro ⟨l, ⟨i, hi, rfl⟩, hx⟩
      rw [List.mem_map] at hx
      obtain ⟨p, hp, rfl⟩ := hx
      exact ⟨i, hi, p, hp, rfl⟩
    · rintro ⟨i, hi, p, hp, rfl⟩
      exact ⟨A.stateIds.map (fun q => q + A.size * i), ⟨i, hi, rfl⟩,
        List.mem_map.mpr ⟨p, hp, rfl⟩⟩

/-- Witness for C4 at a two-state GNBA with two accepting sets. -/
theorem c4_witness :
    (2 ≤ cFourAutomaton.accepting.length ∧
      (∀ t ∈ cFourAutomaton.trans, t.2.2 < cFourAutomaton.size)) ∧
    ((∀ x : Nat × String × Nat, x ∈ cFourAutomaton.gnbaToNba.trans ↔
      ∃ i < cFourAutomaton.accepting.length, ∃ t ∈ cFourAutomaton.trans,
        x = (t.1 + cFourAutomaton.size * i, t.2.1,
          if t.1 ∈ cFourAutomaton.accepting.getD i [] then
            t.2.2 + cFourAutomaton.size * ((i + 1) % cFourAutomaton.accepting.length)
          else t.2.2 + cFourAutomaton.size * i)) ∧
    (∀ q : Nat, q ∈ cFourAutomaton.gnbaToNba.stateIds ↔
      ∃ i < cFourAutomaton.accepting.length, ∃ p ∈ cFourAutomaton.stateIds,
        q = p + cFourAutomaton.size * i) ∧
    cFourAutomaton.gnbaToNba.initial = cFourAutomaton.initial ∧
    cFourAutomaton.gnbaToNba.accepting =
      [(cFourAutomaton.accepting.getD (cFourAutomaton.accepting.length - 1) []).map
        (fun q => q + cFourAutomaton.size * (cFourAutomaton.accepting.length - 1))]) :=
  ⟨⟨by decide, by decide⟩, c4_gnba_to_nba_product cFourAutomaton (by decide) (by decide)⟩

end LMC

namespace LMC

theorem mem_insertAccSet (l : List (List Nat)) (s x : List Nat) :
    x ∈ insertAccSet l s ↔ x ∈ l ∨ x = s := by
  unfold insertAccSet
  by_cases h : s ∈ l
  · rw [if_pos h]
    constructor
    · exact Or.inl
    · rintro (hx | rfl)
      · exact hx
      · exact h
  · rw [if_neg h]
    simp

theorem mem_ltlAccepting_aux (elem : List (List Expr)) :
    ∀ (cl : List Expr) (acc : List (List Nat)) (st : List Nat),
      st ∈ cl.foldl (fun acc e =>
        match e with
        | .Until a b =>
          insertAccSet acc ((List.range elem.length).filter
            (fun i => !decide (Expr.Until a b ∈ elem.getD i []) ||
              decide (b ∈ elem.getD i [])))
        | _ => acc) acc ↔
      st ∈ acc ∨ ∃ a b, Expr.Until a b ∈ cl ∧
        st = (List.range elem.length).filter
          (fun i => !decide (Expr.Until a b ∈ elem.getD i []) ||
            decide (b ∈ elem.getD i [])) := by
  intro cl
  induction cl with
  | nil => simp
  | cons e cl ih =>
    intro acc st
    rw [List.foldl_cons]
    rw [ih]
    cases e with
    | Until a b =>
      rw [mem_insertAccSet]
      constructor
      · rintro ((h | rfl) | ⟨a', b', hm, rfl⟩)
        · exact Or.inl h
        · exact Or.inr ⟨a, b, List.mem_cons_self _ _, rfl⟩
        · exact Or.inr ⟨a', b', List.mem_cons_of_mem _ hm, rfl⟩
      · rintro (h | ⟨a', b', hm, rfl⟩)
        · exact Or.inl (Or.inl h)
        · rcases List.mem_cons.mp hm with he | hm2
          · injection he with h1 h2
            subst h1
            subst h2
            exact Or.inl (Or.inr rfl)
          · exact Or.inr ⟨a', b', hm2, rfl⟩
    | True => simp
    | False => simp
    | Atomic s => simp
    | Not x => simp
    | Next x => simp
    | Globally x => simp
    | Finally x => simp
    | Or l r => simp
    | And l r => simp
    | WeakUntil l r => simp
    | Release l r => simp
    | StrongRelease l r => simp

/-- C8 (amended): for every formula that is a fixed point of `pnf`, the
accepting family of `ltl_to_gnba` consists of exactly one accepting set per
until-formula of the closure, the set holding exactly the states whose
elementary set either does not contain the until-formula or contains its
right-hand side. -/
theorem c8_accepting_family (f : Formula) (hfix : f.pnf = f) :
    ∀ st : List Nat, st ∈ (ltlToGnba f).accepting ↔
      ∃ a b, Expr.Until a b ∈ f.closure ∧
        st = (List.range f.elementary.length).filter
          (fun i => !decide (Expr.Until a b ∈ f.elementary.getD i []) ||
            decide (b ∈ f.elementary.getD i [])) := by
  intro st
  have hacc : (ltlToGnba f).accepting = ltlAccepting f.pnf.closure f.pnf.elementary := rfl
  rw [hacc, hfix]
  unfold ltlAccepting
  rw [mem_ltlAccepting_aux]
  simp

/-- C8 counterexample to the unamended claim: `false ∧ (a U b)` is in
positive normal form and has `a U b` in its closure, yet the produced GNBA has
no accepting set at all, because `ltl_to_gnba` first applies `pnf`, which
rewrites the formula to `false`. -/
theorem c8_counterexample :
    cEightFormula.root_expr.isPNF = true ∧
    Expr.Until (.Atomic "a") (.Atomic "b") ∈ cEightFormula.root_expr.closureList ∧
    (ltlToGnba cEightFormula).accepting = [] := by
  refine ⟨rfl, by decide, rfl⟩

/-- Witness for the amended C8 at the pnf-fixed formula `a U b`. -/
theorem c8_witness :
    cEightWitnessFormula.pnf = cEightWitnessFormula ∧
    (∀ st : List Nat, st ∈ (ltlToGnba cEightWitnessFormula).accepting ↔
      ∃ a b, Expr.Until a b ∈ cEightWitnessFormula.closure ∧
        st = (List.range cEightWitnessFormula.elementary.length).filter
          (fun i => !decide (Expr.Until a b ∈ cEightWitnessFormula.elementary.getD i []) ||
            decide (b ∈ cEightWitnessFormula.elementary.getD i []))) :=
  ⟨by rfl, c8_accepting_family cEightWitnessFormula (by rfl)⟩

end LMC


namespace LMC

theorem orElseO_none {α : Type} (b : Option α) : orElseO none b = b := rfl

theorem orElseO_some {α : Type} (x : α) (b : Option α) : orElseO (some x) b = some x := rfl

theorem unStep_none (p : List Char → Option (Expr × List Char)) (mk : Expr → Expr)
    (t cs : List Char) (h : tagP t cs = none) : unStep p mk t cs = none := by
  rw [unStep, h]
  rfl

theorem binStep_none (p : List Char → Option (Expr × List Char)) (mk : Expr → Expr → Expr)
    (t cs : List Char) (h : tagP t cs = none) : binStep p mk t cs = none := by
  rw [binStep, h]
  rfl

theorem mapTag_none (t cs : List Char) (f : List Char → Expr × List Char)
    (h : tagP t cs = none) : (tagP t cs).map f = none := by
  rw [h]
  rfl

theorem startsWith_head_ne (a b : Char) (as bs : List Char) (h : ¬ a = b) :
    startsWithL (a :: as) (b :: bs) = false := by
  simp [startsWithL, h]

theorem tagP_head_ne (a b : Char) (as bs : List Char) (h : ¬ a = b) :
    tagP (a :: as) (b :: bs) = none := by
  unfold tagP
  rw [startsWith_head_ne a b as bs h]
  rfl

theorem tagP_cons2 (c1 c2 : Char) (rest : List Char) :
    tagP [c1, c2] (c1 :: c2 :: rest) = some rest := by
  simp [tagP, startsWithL]

theorem startsWith_tag2_alnum (c1 : Char) (cs : List Char)
    (hal : ∀ c ∈ cs, c.isAlphanum = true) : startsWithL [c1, ' '] cs = false := by
  cases cs with
  | nil => rfl
  | cons b bs =>
    cases bs with
    | nil => by_cases h : c1 = b <;> simp [startsWithL, h]
    | cons b2 bs2 =>
      have hb2 : b2.isAlphanum = true := hal b2 (by simp)
      have hsp : ¬ (' ' = b2) := by
        intro h
        rw [← h] at hb2
        simp [Char.isAlphanum, Char.isAlpha, Char.isDigit, Char.isUpper, Char.isLower] at hb2
      by_cases h : c1 = b <;> simp [startsWithL, h, hsp]

theorem startsWith_bang_alnum (cs : List Char) (hal : ∀ c ∈ cs, c.isAlphanum = true) :
    startsWithL ['!'] cs = false := by
  cases cs with
  | nil => rfl
  | cons b bs =>
    have hb : b.isAlphanum = true := hal b (by simp)
    have hne : ¬ ('!' = b) := by
      intro h
      rw [← h] at hb
      simp [Char.isAlphanum, Char.isAlpha, Char.isDigit, Char.isUpper, Char.isLower] at hb
    simp [startsWithL, hne]

theorem ChainForm.bare {e : Expr} (h : ChainForm e) : e.bare = true := by
  cases h <;> rfl

end LMC


namespace LMC

theorem ChainForm.parse (e : Expr) (he : ChainForm e) :
    ∀ n : Nat, (e.printE).length < n → parseE n e.printE = some (e, []) := by
  induction he with
  | tru =>
    intro n hn
    match n, hn with
    | n + 1, _ =>
      show parseE (n + 1) "true".toList = some (Expr.True, [])
      simp only [parseE]
      rw [mapTag_none _ _ _ (show tagP "false".toList "true".toList = none from
        tagP_head_ne 'f' 't' _ _ (by decide)), orElseO_none]
      rw [show tagP "true".toList "true".toList = some [] from rfl]
      rfl
  | fls =>
    intro n hn
    match n, hn with
    | n + 1, _ =>
      show parseE (n + 1) "false".toList = some (Expr.False, [])
      simp only [parseE]
      rw [show tagP "false".toList "false".toList = some [] from rfl]
      rfl
  | atom s hne hal htrue hfalse =>
    intro n hn
    match n, hn with
    | n + 1, _ =>
      show parseE (n + 1) s.toList = some (Expr.Atomic s, [])
      have h1 : tagP "false".toList s.toList = none := by
        unfold tagP
        rw [show startsWithL "false".toList s.toList = false from hfalse]
        rfl
      have h2 : tagP "true".toList s.toList = none := by
        unfold tagP
        rw [show startsWithL "true".toList s.toList = false from htrue]
        rfl
      have h3 : tagP "!".toList s.toList = none := by
        unfold tagP
        rw [show startsWithL "!".toList s.toList = false from
          startsWith_bang_alnum s.toList hal]
        rfl
      have htag2 : ∀ c1 : Char, tagP [c1, ' '] s.toList = none := fun c1 => by
        unfold tagP
        rw [startsWith_tag2_alnum c1 s.toList hal]
        rfl
      have hs : String.mk s.toList = s := by cases s; rfl
      have hemp : s.toList.isEmpty = false := by
        cases hcs : s.toList with
        | nil => exact absurd hcs hne
        | cons a as => rfl
      have htw : s.toList.takeWhile (fun c => c.isAlphanum) = s.toList :=
        List.takeWhile_eq_self_iff.mpr hal
      have h4 : parseAtom s.toList = some (Expr.Atomic s, []) := by
        unfold parseAtom
        simp only [htw, hemp, Bool.false_eq_true, if_false, List.drop_length, hs]
      simp only [parseE]
      rw [mapTag_none _ _ _ h1, orElseO_none]
      rw [mapTag_none _ _ _ h2, orElseO_none]
      rw [unStep_none _ _ _ _ h3, orElseO_none]
      rw [binStep_none _ _ _ _ (show tagP "& ".toList s.toList = none from htag2 '&'), orElseO_none]
      rw [binStep_none _ _ _ _ (show tagP "| ".toList s.toList = none from htag2 '|'), orElseO_none]
      rw [unStep_none _ _ _ _ (show tagP "X ".toList s.toList = none from htag2 'X'), orElseO_none]
      rw [unStep_none _ _ _ _ (show tagP "F ".toList s.toList = none from htag2 'F'), orElseO_none]
      rw [unStep_none _ _ _ _ (show tagP "G ".toList s.toList = none from htag2 'G'), orElseO_none]
      rw [binStep_none _ _ _ _ (show tagP "U ".toList s.toList = none from htag2 'U'), orElseO_none]
      rw [binStep_none _ _ _ _ (show tagP "W ".toList s.toList = none from htag2 'W'), orElseO_none]
      rw [binStep_none _ _ _ _ (show tagP "R ".toList s.toList = none from htag2 'R'), orElseO_none]
      rw [binStep_none _ _ _ _ (show tagP "M ".toList s.toList = none from htag2 'M'), orElseO_none]
      exact h4
  | next e hch ih =>
    intro n hn
    match n, hn with
    | n + 1, hn =>
      have hpr : (Expr.Next e).printE = 'X' :: ' ' :: e.printE := by
        show "X ".toList ++ (if e.bare then e.printE else ('(' :: e.printE) ++ [')']) =
          'X' :: ' ' :: e.printE
        rw [hch.bare]
        rfl
      rw [hpr]
      rw [hpr] at hn
      have hlen : (e.printE).length < n := by
        simp only [List.length_cons] at hn
        omega
      have hih := ih n hlen
      simp only [parseE]
      rw [mapTag_none _ _ _ (show tagP "false".toList ('X' :: ' ' :: e.printE) = none from tagP_head_ne 'f' 'X' _ _ (by decide)), orElseO_none]
      rw [mapTag_none _ _ _ (show tagP "true".toList ('X' :: ' ' :: e.printE) = none from tagP_head_ne 't' 'X' _ _ (by decide)), orElseO_none]
      rw [unStep_none _ _ _ _ (show tagP "!".toList ('X' :: ' ' :: e.printE) = none from tagP_head_ne '!' 'X' _ _ (by decide)), orElseO_none]
      rw [binStep_none _ _ _ _ (show tagP "& ".toList ('X' :: ' ' :: e.printE) = none from tagP_head_ne '&' 'X' _ _ (by decide)), orElseO_none]
      rw [binStep_none _ _ _ _ (show tagP "| ".toList ('X' :: ' ' :: e.printE) = none from tagP_head_ne '|' 'X' _ _ (by decide)), orElseO_none]
      rw [show unStep (parseE n) Expr.Next "X ".toList ('X' :: ' ' :: e.printE) =
          some (Expr.Next e, []) from by
        rw [unStep, show tagP "X ".toList ('X' :: ' ' :: e.printE) = some e.printE from
          tagP_cons2 'X' ' ' e.printE]
        show (parseE n e.printE).map (fun q => (Expr.Next q.1, q.2)) = some (Expr.Next e, [])
        rw [hih]
        rfl]
      rfl

/-- C9 (amended): printing then re-parsing is the identity on the fragment
`RoundTripForm`: chains of `X` over `true`, `false` or a plain atom,
optionally under one outer `F` or `G`.  The round trip does not hold in
general: the accompanying counterexample shows a parseable conjunction whose
`Display` output fails to re-parse. -/
theorem c9_roundtrip_fragment (e : Expr) (he : RoundTripForm e) :
    parseFormula e.printE = some (Formula.mk e) := by
  have main : parseE ((e.printE).length + 1) e.printE = some (e, []) := by
    cases he with
    | chain e hch => exact hch.parse e _ (by omega)
    | fin e hch =>
      have hpr : (Expr.Finally e).printE = 'F' :: ' ' :: e.printE := by
        show "F ".toList ++ (if e.bare then e.printE else ('(' :: e.printE) ++ [')']) =
          'F' :: ' ' :: e.printE
        rw [hch.bare]
        rfl
      rw [hpr]
      have hlen : (e.printE).length < ('F' :: ' ' :: e.printE).length := by
        simp only [List.length_cons]
        omega
      generalize hgen : ('F' :: ' ' :: e.printE).length = m
      rw [hgen] at hlen
      have hih := hch.parse e m hlen
      simp only [parseE]
      rw [mapTag_none _ _ _ (show tagP "false".toList ('F' :: ' ' :: e.printE) = none from tagP_head_ne 'f' 'F' _ _ (by decide)), orElseO_none]
      rw [mapTag_none _ _ _ (show tagP "true".toList ('F' :: ' ' :: e.printE) = none from tagP_head_ne 't' 'F' _ _ (by decide)), orElseO_none]
      rw [unStep_none _ _ _ _ (show tagP "!".toList ('F' :: ' ' :: e.printE) = none from tagP_head_ne '!' 'F' _ _ (by decide)), orElseO_none]
      rw [binStep_none _ _ _ _ (show tagP "& ".toList ('F' :: ' ' :: e.printE) = none from tagP_head_ne '&' 'F' _ _ (by decide)), orElseO_none]
      rw [binStep_none _ _ _ _ (show tagP "| ".toList ('F' :: ' ' :: e.printE) = none from tagP_head_ne '|' 'F' _ _ (by decide)), orElseO_none]
      rw [unStep_none _ _ _ _ (show tagP "X ".toList ('F' :: ' ' :: e.printE) = none from tagP_head_ne 'X' 'F' _ _ (by decide)), orElseO_none]
      rw [show unStep (parseE m) Expr.Finally "F ".toList ('F' :: ' ' :: e.printE) =
          some (Expr.Finally e, []) from by
        rw [unStep, show tagP "F ".toList ('F' :: ' ' :: e.printE) = some e.printE from
          tagP_cons2 'F' ' ' e.printE]
        show (parseE m e.printE).map (fun q => (Expr.Finally q.1, q.2)) =
          some (Expr.Finally e, [])
        rw [hih]
        rfl]
      rfl
    | glob e hch =>
      have hpr : (Expr.Globally e).printE = 'G' :: ' ' :: e.printE := by
        show "G ".toList ++ (if e.bare then e.printE else ('(' :: e.printE) ++ [')']) =
          'G' :: ' ' :: e.printE
        rw [hch.bare]
        rfl
      rw [hpr]
      have hlen : (e.printE).length < ('G' :: ' ' :: e.printE).length := by
        simp only [List.length_cons]
        omega
      generalize hgen : ('G' :: ' ' :: e.printE).length = m
      rw [hgen] at hlen
      have hih := hch.parse e m hlen
      simp only [parseE]
      rw [mapTag_none _ _ _ (show tagP "false".toList ('G' :: ' ' :: e.printE) = none from tagP_head_ne 'f' 'G' _ _ (by decide)), orElseO_none]
      rw [mapTag_none _ _ _ (show tagP "true".toList ('G' :: ' ' :: e.printE) = none from tagP_head_ne 't' 'G' _ _ (by decide)), orElseO_none]
      rw [unStep_none _ _ _ _ (show tagP "!".toList ('G' :: ' ' :: e.printE) = none from tagP_head_ne '!' 'G' _ _ (by decide)), orElseO_none]
      rw [binStep_none _ _ _ _ (show tagP "& ".toList ('G' :: ' ' :: e.printE) = none from tagP_head_ne '&' 'G' _ _ (by decide)), orElseO_none]
      rw [binStep_none _ _ _ _ (show tagP "| ".toList ('G' :: ' ' :: e.printE) = none from tagP_head_ne '|' 'G' _ _ (by decide)), orElseO_none]
      rw [unStep_none _ _ _ _ (show tagP "X ".toList ('G' :: ' ' :: e.printE) = none from tagP_head_ne 'X' 'G' _ _ (by decide)), orElseO_none]
      rw [unStep_none _ _ _ _ (show tagP "F ".toList ('G' :: ' ' :: e.printE) = none from tagP_head_ne 'F' 'G' _ _ (by decide)), orElseO_none]
      rw [show unStep (parseE m) Expr.Globally "G ".toList ('G' :: ' ' :: e.printE) =
          some (Expr.Globally e, []) from by
        rw [unStep, show tagP "G ".toList ('G' :: ' ' :: e.printE) = some e.printE from
          tagP_cons2 'G' ' ' e.printE]
        show (parseE m e.printE).map (fun q => (Expr.Globally q.1, q.2)) =
          some (Expr.Globally e, [])
        rw [hih]
        rfl]
      rfl
  unfold parseFormula
  rw [main]

/-- C9 counterexample to the unamended claim: `& a b` parses successfully to
the conjunction of `a` and `b`, but its `Display` output is not a word of the
prefix grammar and fails to re-parse, so parse-print-parse does not
round-trip. -/
theorem c9_counterexample :
    parseFormula ("& a b".toList) =
      some (Formula.mk (.And (.Atomic "a") (.Atomic "b"))) ∧
    parseFormula ((Expr.And (.Atomic "a") (.Atomic "b")).printE) = none := by
  exact ⟨rfl, rfl⟩

/-- Witness for the amended C9 at the formula `F X ab`. -/
theorem c9_witness :
    RoundTripForm (Expr.Finally (.Next (.Atomic "ab"))) ∧
    parseFormula (Expr.Finally (.Next (.Atomic "ab"))).printE =
      some (Formula.mk (Expr.Finally (.Next (.Atomic "ab")))) := by
  have hform : RoundTripForm (Expr.Finally (.Next (.Atomic "ab"))) :=
    RoundTripForm.fin _ (ChainForm.next _ (ChainForm.atom "ab" (by decide) (by decide)
      (by decide) (by decide)))
  exact ⟨hform, c9_roundtrip_fragment _ hform⟩

end LMC

namespace LMC

/-- C2: the four solvers do not return identical partitions on every game —
on the zero-vertex parity game `fpi` panics (`none` models the
`expect` panic on `highest_priority`), while `zielonka` returns the empty
partition.  `spm` and `tangle` guard the empty game the same way `zielonka`
does (`node_count() == 0`). -/
theorem c2_solver_divergence :
    emptyPGraph.fpi = none ∧ emptyPGraph.zielonka = some PSolution.empty := by
  exact ⟨rfl, rfl⟩

/-- C10: the core algorithms are not panic-free — `fpi` on the zero-vertex
parity game reaches `highest_priority().expect(..)` with `None` (modelled by
`highestPriority = none`) and panics instead of returning a `Solution`. -/
theorem c10_fpi_empty_panics :
    emptyPGraph.highestPriority = none ∧ emptyPGraph.fpi = none := by
  exact ⟨rfl, rfl⟩

end LMC
